import Mathlib

/-!
Verification development for the `bevy_steam_audio` repository.

This file gives a shallow embedding, in Lean, of the parts of the code that
the specification talks about:

* the re-blocking decode processor `SteamAudioDecodeProcessor::process`
  (`src/nodes/decoder.rs`), which accumulates variable-size callback blocks
  into fixed simulation frames and drains a queued output;
* the generic fixed-frame accumulator `FixedProcessBlock` (`src/nodes/mod.rs`);
* the dual-rate scheduler / background worker protocol of
  `crates/bevy_steam_audio/src/simulation.rs` (`update_simulation` and the
  worker future spawned by `create_simulator`), embedded as an interleaving
  transition system;
* the per-source setup pass `init_audionimbus_sources` (`src/sources.rs`),
  including the engine-lock operations it performs.

Samples are modelled as integers: the adapters only copy samples around and
never do arithmetic on them, so the carrier type is irrelevant; the DSP
callback itself is an abstract function parameter.
-/

namespace SteamAudio

/-- Status returned by a firewheel audio-node `process` call
(`firewheel::node::ProcessStatus`, restricted to the two variants the
embedded code uses). -/
inductive ProcessStatus where
  | clearAllOutputs
  | outputsModified
deriving DecidableEq, Repr

/-! ## The decode re-blocking processor, `src/nodes/decoder.rs`

`SteamAudioDecodeProcessor` holds `num_channels` input accumulation vectors of
capacity `frame_size`, two output queues (stereo) with reserved capacity
`max_block_frames * 2`, and a `started_draining` flag.  One `process` call
receives `proc_info.frames` new samples per input channel and output slices of
the same block length.  The ambisonics decode effect is an abstract parameter
`effect` mapping the mixed input frame (`mix_container`, `num_channels *
frame_size` samples) to the staging buffer (`2 * frame_size` samples); the
in-place write into the fixed-size staging container is modelled by
`List.takeD` with zero fill.
-/

/-- State of `SteamAudioDecodeProcessor` (`src/nodes/decoder.rs`).  Capacities
of the two output `Vec`s are tracked explicitly (`outCap0`, `outCap1`) so that
the `validate_capacity` defect check can be modelled; `allocWarnings` counts
how many times `validate_capacity` observed a capacity change (`warn!` in the
source). -/
structure DecodeProcessor where
  inputBuffer : List (List ℤ)
  outputBuffer0 : List ℤ
  outputBuffer1 : List ℤ
  outCap0 : ℕ
  outCap1 : ℕ
  maxBlockFrames : ℕ
  startedDraining : Bool
  frameSize : ℕ
  numChannels : ℕ
  allocWarnings : ℕ
deriving DecidableEq, Repr

/-- One `process` call's inputs: the per-call block length `proc_info.frames`,
whether `proc_info.in_silence_mask.all_channels_silent(..)` holds, and the
input slices (one list per channel, each of length `frames`).  firewheel hands
the node input and output slices of the same per-call block length. -/
structure DecodeCall where
  frames : ℕ
  silent : Bool
  inputs : List (List ℤ)
deriving DecidableEq, Repr

/-- Rust `Vec` growth on `extend` past capacity (`RawVec::grow_amortized`):
the new capacity is the larger of twice the old capacity and the needed
length; no change if the needed length fits. -/
def growCap (cap needed : ℕ) : ℕ :=
  if needed ≤ cap then cap else max (2 * cap) needed

/-- `SteamAudioDecodeProcessor` as built by `construct_processor`
(`src/nodes/decoder.rs`): empty input vectors with capacity `frame_size`,
empty output queues with capacity `max_block_frames * 2`, draining not yet
started. -/
def DecodeProcessor.construct (frameSize maxBlockFrames numChannels : ℕ) :
    DecodeProcessor where
  inputBuffer := List.replicate numChannels []
  outputBuffer0 := []
  outputBuffer1 := []
  outCap0 := maxBlockFrames * 2
  outCap1 := maxBlockFrames * 2
  maxBlockFrames := maxBlockFrames
  startedDraining := false
  frameSize := frameSize
  numChannels := numChannels
  allocWarnings := 0

/-- `SteamAudioDecodeProcessor::total_capacity`: sum of the capacities of
`mix_container` (`frame_size * num_channels`), `staging_container`
(`2 * frame_size`), the outer `input_buffer` vector (`num_channels`), each
inner input vector (`frame_size` each) and the two output queues.  Only the
output-queue capacities can ever vary. -/
def DecodeProcessor.totalCapacity (st : DecodeProcessor) : ℕ :=
  st.frameSize * st.numChannels + 2 * st.frameSize + st.numChannels
    + st.numChannels * st.frameSize + st.outCap0 + st.outCap1

/-- `SteamAudioDecodeProcessor::validate_capacity`: compare the capacity total
at entry to `process` with the one at exit and `warn!` on mismatch. -/
def DecodeProcessor.validateCapacity (startCap : ℕ) (st : DecodeProcessor) :
    DecodeProcessor :=
  if st.totalCapacity ≠ startCap then
    { st with allocWarnings := st.allocWarnings + 1 }
  else st

/-- The body run when the input accumulation vectors are full
(`src/nodes/decoder.rs`, `process`, "Buffer full"): copy the per-channel
input vectors into `mix_container`, run the decode effect into the staging
container, append the left/right halves of the staging container to the two
output queues, and clear the input vectors. -/
def DecodeProcessor.flushFrame (effect : List ℤ → List ℤ)
    (st : DecodeProcessor) : DecodeProcessor :=
  let mix := st.inputBuffer.flatten
  let staging := List.takeD (2 * st.frameSize) (effect mix) 0
  let left := staging.take st.frameSize
  let right := staging.drop st.frameSize
  let out0 := st.outputBuffer0 ++ left
  let out1 := st.outputBuffer1 ++ right
  { st with
    inputBuffer := st.inputBuffer.map (fun _ => [])
    outputBuffer0 := out0
    outputBuffer1 := out1
    outCap0 := growCap st.outCap0 out0.length
    outCap1 := growCap st.outCap1 out1.length }

/-- One iteration of the accumulation loop at input frame index `frame`:
push `src[frame]` onto each channel's accumulation vector. -/
def DecodeProcessor.pushInputFrame (inputs : List (List ℤ)) (frame : ℕ)
    (st : DecodeProcessor) : DecodeProcessor :=
  { st with
    inputBuffer :=
      List.zipWith (fun dst src => dst ++ [src.getD frame 0])
        st.inputBuffer inputs }

/-- The accumulation loop of `process` over input frames `0, 1, …, n-1`:
push each frame; whenever channel 0's accumulation vector reaches its
capacity (`frame_size`), run `flushFrame`. -/
def DecodeProcessor.accumFrames (effect : List ℤ → List ℤ)
    (inputs : List (List ℤ)) : ℕ → DecodeProcessor → DecodeProcessor
  | 0, st => st
  | n + 1, st =>
      let st' := (st.accumFrames effect inputs n).pushInputFrame inputs n
      if (st'.inputBuffer.headD []).length = st'.frameSize then
        st'.flushFrame effect
      else st'

/-- The drain at the end of `process`: `src.drain(..output_len)` on each
output queue, writing into the output slices.  Rust's `Vec::drain` panics
when `output_len` exceeds the queue length; the panic is modelled as
`Except.error`. -/
def DecodeProcessor.drainOutputs (outputLen : ℕ) (st : DecodeProcessor) :
    Except String ((List ℤ × List ℤ) × DecodeProcessor) :=
  if outputLen ≤ st.outputBuffer0.length ∧ outputLen ≤ st.outputBuffer1.length
  then
    .ok ((st.outputBuffer0.take outputLen, st.outputBuffer1.take outputLen),
      { st with
        outputBuffer0 := st.outputBuffer0.drop outputLen
        outputBuffer1 := st.outputBuffer1.drop outputLen })
  else .error "Vec::drain range end out of bounds"

/-- `SteamAudioDecodeProcessor::process` (`src/nodes/decoder.rs`):

1. if all input channels are silent, return `ClearAllOutputs` immediately;
2. run the accumulation loop (flushing a decoded frame into the output
   queues each time the accumulation vectors fill);
3. if draining has not started and channel 0's queue is shorter than
   `1.5 * max_block_frames` (the comparison `(len as f32) < max * 1.5` is
   exact for these magnitudes and is written here as `2*len < 3*max`),
   return `ClearAllOutputs` without draining;
4. otherwise set `started_draining` and drain exactly the block length from
   each output queue, returning `OutputsModified`.

Every exit path runs `validate_capacity`. -/
def DecodeProcessor.process (effect : List ℤ → List ℤ)
    (st : DecodeProcessor) (call : DecodeCall) :
    Except String (ProcessStatus × (List ℤ × List ℤ) × DecodeProcessor) :=
  let startCap := st.totalCapacity
  if call.silent then
    .ok (.clearAllOutputs, ([], []), st.validateCapacity startCap)
  else
    let st1 := st.accumFrames effect call.inputs call.frames
    if st1.startedDraining = false ∧
        2 * st1.outputBuffer0.length < 3 * st1.maxBlockFrames then
      .ok (.clearAllOutputs, ([], []), st1.validateCapacity startCap)
    else
      let st2 := { st1 with startedDraining := true }
      match st2.drainOutputs call.frames with
      | .ok (drained, st3) =>
          .ok (.outputsModified, drained, st3.validateCapacity startCap)
      | .error e => .error e

/-- Run a sequence of `process` calls, collecting each call's status and
drained samples.  Propagates a panic (`Except.error`) from any call. -/
def DecodeProcessor.run (effect : List ℤ → List ℤ) :
    DecodeProcessor → List DecodeCall →
    Except String (List (ProcessStatus × (List ℤ × List ℤ)) × DecodeProcessor)
  | st, [] => .ok ([], st)
  | st, call :: calls =>
      match st.process effect call with
      | .error e => .error e
      | .ok (status, drained, st') =>
          match DecodeProcessor.run effect st' calls with
          | .error e => .error e
          | .ok (rest, stF) => .ok ((status, drained) :: rest, stF)

/-! ## The generic fixed-frame accumulator, `src/nodes/mod.rs`

`FixedProcessBlock` re-blocks arbitrary per-callback buffers into
`fixed_block_size`-length frames for a DSP callback `process_fn`, queueing the
callback's output and draining the requested number of samples per call.  The
flat `Box<[f32]>` of `FlatChannels` with stride `channel_capacity` is modelled
channel-major: `data[ch]` is the filled prefix `[0, length)` of channel `ch`'s
region.  The stateful `FnMut` callback is modelled as a pure function
`F : σ → List (List ℤ) → σ × List (List ℤ)` with explicit state threading;
writing into the freshly zero-extended output regions of length
`channel_capacity` is modelled by `List.takeD` with zero fill. -/

/-- `FlatChannels` (`src/nodes/mod.rs`): per-channel fixed-capacity input
accumulation with an explicit fill counter `length`. -/
structure FlatChannels where
  channelCount : ℕ
  channelCapacity : ℕ
  data : List (List ℤ)
  length : ℕ
deriving DecidableEq, Repr

/-- `FlatChannels::new`: zeroed storage, fill counter at 0. -/
def FlatChannels.new (channelCount channelCapacity : ℕ) : FlatChannels where
  channelCount := channelCount
  channelCapacity := channelCapacity
  data := List.replicate channelCount []
  length := 0

/-- `FlatChannels::push_frame`: write sample `input_frame` of every input
slice at position `length` of the corresponding channel, then advance the
fill counter. -/
def FlatChannels.pushFrame (inputFrame : ℕ) (inputs : List (List ℤ))
    (fc : FlatChannels) : FlatChannels :=
  { fc with
    data := List.zipWith (fun buf inp => buf ++ [inp.getD inputFrame 0])
      fc.data inputs
    length := fc.length + 1 }

/-- `FlatChannels::is_full`: the fill counter reached the capacity. -/
def FlatChannels.isFull (fc : FlatChannels) : Prop :=
  fc.length = fc.channelCapacity

instance (fc : FlatChannels) : Decidable fc.isFull := by
  unfold FlatChannels.isFull; infer_instance

/-- `FlatChannels::clear`: reset the fill counter (the filled prefixes become
empty). -/
def FlatChannels.clear (fc : FlatChannels) : FlatChannels :=
  { fc with data := fc.data.map (fun _ => []), length := 0 }

/-- `FixedProcessBlock` (`src/nodes/mod.rs`): the input accumulator plus one
growable output queue per output channel.  (The preallocated scratch
slice-vectors `input_lens`/`output_lens` carry no data across calls and need
no model state.) -/
structure FixedProcessBlock where
  inputs : FlatChannels
  outputs : List (List ℤ)
deriving DecidableEq, Repr

/-- `FixedProcessBlock::new` — note that `max_output_size` only reserves
capacity and does not affect queueing behaviour. -/
def FixedProcessBlock.new (fixedBlockSize maxOutputSize inputChannels
    outputChannels : ℕ) : FixedProcessBlock where
  inputs := FlatChannels.new inputChannels fixedBlockSize
  outputs := List.replicate outputChannels []

/-- The output-extension loop run when the accumulator fills
(`for output in self.outputs.iter_mut() { … }` together with the in-place
writes of `process`): starting at channel index `ch`, append to each output
queue the `channel_capacity`-sized region the callback wrote for that
channel (zero-extended region overwritten by `written`, modelled by
`List.takeD` with zero fill). -/
def extendOutputs (cap : ℕ) (written : List (List ℤ)) :
    List (List ℤ) → ℕ → List (List ℤ)
  | [], _ => []
  | q :: qs, ch =>
      (q ++ List.takeD cap (written.getD ch []) 0) ::
        extendOutputs cap written qs (ch + 1)

/-- One iteration of `FixedProcessBlock::process`'s accumulation loop, at
input frame index `frame`, also logging the input slices passed to
`process_fn` (third component): push the frame; if the accumulator is full,
run `process_fn` on the filled slices against freshly extended zeroed output
regions of length `channel_capacity`, append the written regions to the
output queues, and clear the accumulator. -/
def FixedProcessBlock.stepFrame (F : σ → List (List ℤ) → σ × List (List ℤ))
    (callInputs : List (List ℤ)) (frame : ℕ)
    (acc : FixedProcessBlock × σ × List (List (List ℤ))) :
    FixedProcessBlock × σ × List (List (List ℤ)) :=
  let fb := acc.1
  let ins := fb.inputs.pushFrame frame callInputs
  if ins.isFull then
    (⟨ins.clear,
      extendOutputs ins.channelCapacity (F acc.2.1 ins.data).2
        fb.outputs 0⟩,
     (F acc.2.1 ins.data).1, acc.2.2 ++ [ins.data])
  else
    (⟨ins, fb.outputs⟩, acc.2.1, acc.2.2)

/-- The accumulation loop of `FixedProcessBlock::process` over input frames
`0, 1, …, n-1`. -/
def FixedProcessBlock.procFrames (F : σ → List (List ℤ) → σ × List (List ℤ))
    (callInputs : List (List ℤ)) :
    ℕ → FixedProcessBlock × σ × List (List (List ℤ)) →
    FixedProcessBlock × σ × List (List (List ℤ))
  | 0, acc => acc
  | n + 1, acc =>
      FixedProcessBlock.stepFrame F callInputs n
        (FixedProcessBlock.procFrames F callInputs n acc)

/-- One call of `FixedProcessBlock::process` (`src/nodes/mod.rs`): run the
accumulation loop over `info.frames` input frames, then, if output channel 0
holds at least as many queued samples as the length of proc output slice 0,
drain `proc_out.len().min(buffer_len)` samples from each queue into the
corresponding output slice and report `OutputsModified`; otherwise report
`ClearAllOutputs` and drain nothing.  `outLens` lists the lengths of the proc
output slices; the drained samples per channel are returned. -/
def FixedProcessBlock.process (F : σ → List (List ℤ) → σ × List (List ℤ))
    (fb : FixedProcessBlock) (s : σ) (frames : ℕ)
    (callInputs : List (List ℤ)) (outLens : List ℕ) :
    FixedProcessBlock × σ × List (List (List ℤ)) ×
      ProcessStatus × List (List ℤ) :=
  let acc := FixedProcessBlock.procFrames F callInputs frames (fb, s, [])
  let fb1 := acc.1
  match fb1.outputs.head?, outLens.head? with
  | some inner, some outerLen =>
      if outerLen ≤ inner.length then
        (⟨fb1.inputs,
          List.zipWith (fun len q => q.drop (min len q.length))
              outLens fb1.outputs
            ++ fb1.outputs.drop outLens.length⟩,
         acc.2.1, acc.2.2, .outputsModified,
         List.zipWith (fun len q => q.take (min len q.length))
           outLens fb1.outputs)
      else (fb1, acc.2.1, acc.2.2, .clearAllOutputs, [])
  | _, _ => (fb1, acc.2.1, acc.2.2, .clearAllOutputs, [])

/-- One callback's worth of input to `FixedProcessBlock::process`: the block
length, the input slices (one per input channel, each of length `frames`),
and the lengths of the proc output slices to drain into. -/
structure BlockCall where
  frames : ℕ
  inputs : List (List ℤ)
  outLens : List ℕ
deriving DecidableEq, Repr

/-- Run a sequence of `FixedProcessBlock::process` calls, threading the
callback state and concatenating the invocation log; collects each call's
status and drained samples. -/
def FixedProcessBlock.runCalls (F : σ → List (List ℤ) → σ × List (List ℤ)) :
    FixedProcessBlock → σ → List BlockCall →
    FixedProcessBlock × σ × List (List (List ℤ)) ×
      List (ProcessStatus × List (List ℤ))
  | fb, s, [] => (fb, s, [], [])
  | fb, s, call :: calls =>
      let r := fb.process F s call.frames call.inputs call.outLens
      let rest := FixedProcessBlock.runCalls F r.1 r.2.1 calls
      (rest.1, rest.2.1, r.2.2.1 ++ rest.2.2.1,
        (r.2.2.2.1, r.2.2.2.2) :: rest.2.2.2)

/-- The `j`-th `f`-sized chunk of a family of per-channel streams. -/
def sliceChunk (f : ℕ) (streams : List (List ℤ)) (j : ℕ) : List (List ℤ) :=
  streams.map fun s => (s.drop (j * f)).take f

/-- All complete `f`-sized chunks of per-channel streams holding `total`
samples each. -/
def fullChunks (f total : ℕ) (streams : List (List ℤ)) :
    List (List (List ℤ)) :=
  (List.range (total / f)).map (sliceChunk f streams)

/-- Reference semantics from the specification: feed `process_fn` the input
directly in frame-sized chunks, each against `outCh` zeroed output buffers of
length `cap`, and collect the written outputs chunk by chunk.
Modelled from the spec: this is the right-hand side of the
frame-reassembly property, not a function of the repository. -/
def chunkFeedRef (F : σ → List (List ℤ) → σ × List (List ℤ))
    (cap outCh : ℕ) : σ → List (List (List ℤ)) → σ × List (List (List ℤ))
  | s, [] => (s, [])
  | s, chunk :: rest =>
      ((chunkFeedRef F cap outCh (F s chunk).1 rest).1,
        ((List.range outCh).map fun ch =>
          List.takeD cap ((F s chunk).2.getD ch []) 0) ::
        (chunkFeedRef F cap outCh (F s chunk).1 rest).2)

/-- Concatenation of channel `ch` across a list of per-chunk channel
families. -/
def channelCat (ch : ℕ) (chunks : List (List (List ℤ))) : List ℤ :=
  (chunks.map fun chunk => chunk.getD ch []).flatten

/-- Spec-side view of repeated output extension: starting at channel index
`ch`, each queue gets the concatenation of its channel across all produced
chunks appended. -/
def appendProduced (produced : List (List (List ℤ))) :
    List (List ℤ) → ℕ → List (List ℤ)
  | [], _ => []
  | q :: qs, ch =>
      (q ++ channelCat ch produced) :: appendProduced produced qs (ch + 1)

/-- Channel-wise concatenation of the input slices of a sequence of calls. -/
def concatStreams (inCh : ℕ) : List BlockCall → List (List ℤ)
  | [] => List.replicate inCh []
  | call :: calls =>
      List.zipWith (· ++ ·) call.inputs (concatStreams inCh calls)

/-- Total number of input frames over a sequence of calls. -/
def sumFrames (calls : List BlockCall) : ℕ :=
  (calls.map fun call => call.frames).sum

/-- Concatenation of channel `ch` over the drained outputs of a sequence of
process-call results. -/
def drainedCat (ch : ℕ)
    (results : List (ProcessStatus × List (List ℤ))) : List ℤ :=
  (results.map fun r => r.2.getD ch []).flatten

/-- Closed form of the accumulation loop's result (proved equal to
`FixedProcessBlock.procFrames` below): the per-channel streams
`fill ++ input` are consumed chunk by chunk; the remainder stays in the
accumulator, `process_fn` is fed every complete chunk in order via
`chunkFeedRef`, and its outputs are appended channel-wise to the output
queues. -/
def procFramesSpec (F : σ → List (List ℤ) → σ × List (List ℤ))
    (ins : List (List ℤ)) (n : ℕ) (fb : FixedProcessBlock) (s : σ)
    (log : List (List (List ℤ))) :
    FixedProcessBlock × σ × List (List (List ℤ)) :=
  let f := fb.inputs.channelCapacity
  let combined :=
    List.zipWith (fun buf inp => buf ++ inp.take n) fb.inputs.data ins
  let k := (fb.inputs.length + n) / f
  let chunks := (List.range k).map (sliceChunk f combined)
  let R := chunkFeedRef F f fb.outputs.length s chunks
  (⟨⟨fb.inputs.channelCount, f, combined.map (List.drop (k * f)),
      (fb.inputs.length + n) % f⟩,
    appendProduced R.2 fb.outputs 0⟩, R.1, log ++ chunks)

/-! ## The dual-rate scheduler / background worker protocol

`crates/bevy_steam_audio/src/simulation.rs`: `create_simulator` spawns a
long-lived worker future sharing with the per-tick system `update_simulation`
an atomic completion flag (`AsyncSimulationSynchronization::complete`), an
unbounded crossbeam wake channel, and the engine handle behind the
reader/writer lock.  The protocol is embedded as an interleaving transition
system (sequentially consistent shared memory): each transition performs at
most one access to the shared flag or channel, so every interleaving of the
scheduler's individual shared accesses with the worker's is covered.  Scene
edits are modelled as an abstract queue of edit identifiers
(`SteamAudioRootScene` mutations), committed by `root.commit()` +
`simulator.try_write().commit()` at the top of a tick.  Ghost fields (`since`,
`wakes`, `passes`, `sends`) record history and never influence transitions. -/

/-- Phase of the worker future spawned in `create_simulator`.  `running snap`
means an expensive reflections/pathing pass is in flight and observes the
scene contents `snap` that were committed when it started; the worker then
stores `true` to the flag and blocks on `rx.recv()` (`waiting`); a closed
channel makes it break out of the loop (`exited`). -/
inductive WorkerPhase where
  | running (snapshot : List ℕ)
  | waiting
  | exited
deriving DecidableEq, Repr

/-- Program counter of `update_simulation` inside one tick: `top` is about to
run the flag-gated commit block; `direct` is about to run the synchronous
direct pass (read lock); `advance` is about to tick the throttle timer and
test it together with the flag; `observed` has just loaded the flag as `true`
with the timer elapsed; `stored` has stored `false` to the flag and reset the
timer, and is about to send the wake. -/
inductive SchedPc where
  | top
  | direct
  | advance
  | observed
  | stored
deriving DecidableEq, Repr

/-- Joint state of the scheduler tick loop, the worker, and the shared
synchronization data.  `flag` is the atomic completion flag, `chan` the
number of queued wake messages, `closed` whether the wake channel's sender
was dropped, `timer` the throttle timer's elapsed time, and
`pending`/`committed` the queued and committed scene edits.  `since` (time
elapsed since the last dispatched wake), `wakes` (wakes received), `passes`
(expensive passes started) and `sends` (wakes sent) are ghost history
fields. -/
structure SchedState where
  flag : Bool
  chan : ℕ
  closed : Bool
  worker : WorkerPhase
  pc : SchedPc
  timer : ℕ
  pending : List ℕ
  committed : List ℕ
  since : ℕ
  wakes : ℕ
  passes : ℕ
  sends : ℕ
deriving DecidableEq, Repr

/-- State right after `create_simulator`: flag `false`
(`AtomicBool::new(false)`), empty channel, and the freshly spawned worker
already inside its first loop iteration — the worker future runs the
expensive pass once before ever waiting on the channel. -/
def SchedState.init : SchedState where
  flag := false
  chan := 0
  closed := false
  worker := .running []
  pc := .top
  timer := 0
  pending := []
  committed := []
  since := 0
  wakes := 0
  passes := 1
  sends := 0

/-- Interleaved small-step semantics of one scheduler tick
(`update_simulation`, with steam audio enabled and a reflection/pathing timer
configured, period `T`), the worker loop, scene-edit enqueueing, and channel
teardown. -/
inductive SchedStep (T : ℕ) : SchedState → SchedState → Prop where
  /-- A scene mutation is queued (allowed at any time). -/
  | enqueue (s : SchedState) (e : ℕ) :
      SchedStep T s { s with pending := s.pending ++ [e] }
  /-- Top of the tick, flag loaded as `true`: `root.commit()` and
  `simulator.try_write()…commit()` make all queued edits visible (the
  `try_write` cannot fail here: the flag being `true` means the worker is
  waiting and holds no lock). -/
  | topCommit (s : SchedState) (hpc : s.pc = .top) (hflag : s.flag = true) :
      SchedStep T s
        { s with committed := s.committed ++ s.pending, pending := [],
                 pc := .direct }
  /-- Top of the tick, flag loaded as `false`: skip the commit block. -/
  | topSkip (s : SchedState) (hpc : s.pc = .top) (hflag : s.flag = false) :
      SchedStep T s { s with pc := .direct }
  /-- The synchronous direct pass: set inputs, `try_read`, `run_direct`,
  publish outputs (touches neither the flag nor the channel). -/
  | directPass (s : SchedState) (hpc : s.pc = .direct) :
      SchedStep T s { s with pc := .advance }
  /-- `timer.tick(dt)` with the timer not yet elapsed: the tick returns. -/
  | tickNotElapsed (s : SchedState) (dt : ℕ) (hpc : s.pc = .advance)
      (h : s.timer + dt < T) :
      SchedStep T s
        { s with timer := s.timer + dt, since := s.since + dt, pc := .top }
  /-- `timer.tick(dt)` elapsed but the flag loads `false` (worker busy):
  the tick returns without resetting the timer — dispatch deferred. -/
  | tickBusy (s : SchedState) (dt : ℕ) (hpc : s.pc = .advance)
      (h : T ≤ s.timer + dt) (hflag : s.flag = false) :
      SchedStep T s
        { s with timer := s.timer + dt, since := s.since + dt, pc := .top }
  /-- `timer.tick(dt)` elapsed and the flag loads `true`: proceed to
  dispatch (publish previous reflections outputs, set new inputs). -/
  | tickReady (s : SchedState) (dt : ℕ) (hpc : s.pc = .advance)
      (h : T ≤ s.timer + dt) (hflag : s.flag = true) :
      SchedStep T s
        { s with timer := s.timer + dt, since := s.since + dt,
                 pc := .observed }
  /-- `synchro.complete.store(false)` followed by `timer.reset()`. -/
  | storeReset (s : SchedState) (hpc : s.pc = .observed) :
      SchedStep T s { s with flag := false, timer := 0, pc := .stored }
  /-- `synchro.sender.send(())` succeeds: one wake queued, tick over. -/
  | send (s : SchedState) (hpc : s.pc = .stored) (hcl : s.closed = false) :
      SchedStep T s
        { s with chan := s.chan + 1, sends := s.sends + 1, since := 0,
                 pc := .top }
  /-- `synchro.sender.send(())` on a closed channel returns `Err`, which the
  tick propagates (`?`): tick over, no wake queued. -/
  | sendClosed (s : SchedState) (hpc : s.pc = .stored)
      (hcl : s.closed = true) :
      SchedStep T s { s with pc := .top }
  /-- The worker finishes `run_reflections()` + `run_pathing()`, drops the
  lock and stores `true` to the flag
  (`simulation_complete_inner.store(true)`), then blocks on `rx.recv()`. -/
  | workerFinish (s : SchedState) (snap : List ℕ)
      (hw : s.worker = .running snap) :
      SchedStep T s { s with flag := true, worker := .waiting }
  /-- `rx.recv()` returns `Ok(())`: consume one wake and start the next
  expensive pass against the currently committed scene. -/
  | workerRecv (s : SchedState) (hw : s.worker = .waiting)
      (hc : 1 ≤ s.chan) :
      SchedStep T s
        { s with chan := s.chan - 1, worker := .running s.committed,
                 wakes := s.wakes + 1, passes := s.passes + 1 }
  /-- `rx.recv()` returns `Err` — the sender was dropped and no buffered
  message remains — and the worker breaks out of its loop. -/
  | workerExit (s : SchedState) (hw : s.worker = .waiting)
      (hc : s.chan = 0) (hcl : s.closed = true) :
      SchedStep T s { s with worker := .exited }
  /-- Stream teardown / simulator rebuild drops the sender, closing the
  channel. -/
  | close (s : SchedState) :
      SchedStep T s { s with closed := true }

/-- States reachable from the post-`create_simulator` state. -/
def SchedReachable (T : ℕ) (s : SchedState) : Prop :=
  Relation.ReflTransGen (SchedStep T) SchedState.init s

/-- The protocol invariant of the scheduler/worker hand-off, established for
every reachable state. -/
def SchedInv (T : ℕ) (s : SchedState) : Prop :=
  (s.flag = true →
    (s.worker = .waiting ∨ s.worker = .exited) ∧ s.chan = 0) ∧
  (∀ snap, s.worker = .running snap →
    s.flag = false ∧ s.chan = 0 ∧ snap = s.committed) ∧
  s.chan ≤ 1 ∧
  (s.worker = .exited → s.closed = true ∧ s.chan = 0) ∧
  (s.pc = .observed →
    s.flag = true ∧ T ≤ s.timer ∧
    (s.worker = .waiting ∨ s.worker = .exited)) ∧
  (s.pc = .stored →
    s.flag = false ∧ s.chan = 0 ∧ T ≤ s.since ∧
    (s.worker = .waiting ∨ s.worker = .exited) ∧ s.timer = 0) ∧
  s.timer ≤ s.since ∧
  s.passes ≤ s.wakes + 1

/-! ## Engine-lock usage and per-source setup

The engine handle (`AudionimbusSimulator`) is an `Arc<RwLock<Simulator>>`.
The lock operations each function performs, in program order, are recorded
as traces. -/

/-- A reader/writer lock operation on the simulator handle. -/
inductive LockOp where
  | read
  | write
  | tryRead
  | tryWrite
deriving DecidableEq, Repr

/-- Lock acquisitions of the worker future's expensive pass in
`crates/bevy_steam_audio/src/simulation.rs` (`simulator.read().unwrap()`
held across `run_reflections()` and `run_pathing()`). -/
def workerExpensivePassLocks : List LockOp := [.read]

/-- Lock acquisitions of the worker future's expensive pass in the top-level
crate, `src/simulation.rs` (`simulator.write().unwrap()` held across
`run_reflections()` and `run_pathing()`). -/
def workerExpensivePassLocksTopLevel : List LockOp := [.write]

/-- Lock acquisitions of one `update_simulation` tick
(`crates/bevy_steam_audio/src/simulation.rs`), given the value loaded from
the completion flag at the top of the tick: a `try_write` for the commit when
the flag is `true`, then a `try_read` for the direct pass. -/
def updateSimulationLocks (complete : Bool) : List LockOp :=
  (if complete then [.tryWrite] else []) ++ [.tryRead]

/-- Environment of `init_audionimbus_sources` (`src/sources.rs`): entity
names (`NameOrEntity`), the `SteamAudioSamplePlayer` component lookup, and
the outcome of `audionimbus::Source::try_new` per entity.  Entities and
sources are identifiers. -/
structure SourceSetupEnv where
  name : ℕ → String
  settings : ℕ → Option ℕ
  tryNewSource : ℕ → Except String ℕ

/-- One iteration of the `to_setup` loop of `init_audionimbus_sources`:
returns the error messages recorded, the `(entity, source)` insertions
performed, and the simulator-lock operations taken.  A missing
`SteamAudioSamplePlayer` pushes an error and skips the entity; a failed
`Source::try_new` (called under `simulator.read()`) pushes an error and skips
the entity; on success `simulator.write()` is taken to `add_source` and the
component is inserted. -/
def initSourceStep (env : SourceSetupEnv) (entity : ℕ) :
    List String × List (ℕ × ℕ) × List LockOp :=
  match env.settings entity with
  | none =>
      ([env.name entity ++ " Failed to get SteamAudioSamplePlayer"], [], [])
  | some _ =>
      match env.tryNewSource entity with
      | .error err =>
          ([env.name entity ++ " Failed to create AudionimbusSource: " ++ err],
           [], [.read])
      | .ok source => ([], [(entity, source)], [.read, .write])

/-- The `to_setup` loop of `init_audionimbus_sources`, in order. -/
def initSourceLoop (env : SourceSetupEnv) :
    List ℕ → List String × List (ℕ × ℕ) × List LockOp
  | [] => ([], [], [])
  | e :: rest =>
      let (errs, ins, lks) := initSourceStep env e
      let (errs', ins', lks') := initSourceLoop env rest
      (errs ++ errs', ins ++ ins', lks ++ lks')

/-- `init_audionimbus_sources` (`src/sources.rs`): drain `to_setup`,
collecting errors instead of aborting, then return `Ok(())` when no error was
recorded and otherwise one combined error joining all messages with
newlines. -/
def initAudionimbusSources (env : SourceSetupEnv) (toSetup : List ℕ) :
    (List String × List (ℕ × ℕ) × List LockOp) × Except String Unit :=
  let r := initSourceLoop env toSetup
  (r, if r.1.isEmpty then .ok () else
    .error (String.intercalate "\n" r.1))

/-- The error-free entry of `initSourceStep`'s and `initSourceLoop`'s
result, as `init_audionimbus_sources` would compute it per entity. -/
def initSourceOutcome (env : SourceSetupEnv) (e : ℕ) : Option String :=
  match env.settings e with
  | none => some (env.name e ++ " Failed to get SteamAudioSamplePlayer")
  | some _ =>
      match env.tryNewSource e with
      | .error err =>
          some (env.name e ++ " Failed to create AudionimbusSource: " ++ err)
      | .ok _ => none

/-- The successful insertion `initSourceStep` performs per entity, if any. -/
def initSourceSuccess (env : SourceSetupEnv) (e : ℕ) : Option (ℕ × ℕ) :=
  match env.settings e with
  | none => none
  | some _ =>
      match env.tryNewSource e with
      | .error _ => none
      | .ok source => some (e, source)

/-- Conclusion of the wake-discipline claim, for a reachable state `s` and a
step `s → s'`: a wake is sent only from the dispatch point (`pc = stored`),
which is reached only by observing the flag `true` and which already stored
`false` to the flag; at most one wake is ever queued; and while a pass runs
no wake is queued and the flag is `false`. -/
def WakeDiscipline (s s' : SchedState) : Prop :=
  (s'.sends = s.sends + 1 → s.pc = .stored ∧ s.flag = false ∧ s.chan = 0) ∧
  (s.pc = .observed → s.flag = true) ∧
  s'.chan ≤ 1 ∧
  (∀ snap, s'.worker = .running snap → s'.chan = 0 ∧ s'.flag = false)

/-- Conclusion of the commit-ordering claim, for a reachable state `s` and a
step `s → s'`: an in-flight pass observes exactly the committed scene; any
step that changes the committed scene is the flag-gated commit at the top of
a tick (flag `true`, hence worker waiting), executed before the tick's direct
pass (`pc` goes `top → direct`); and the committed scene never changes while
a pass is in flight. -/
def CommitOrdering (s s' : SchedState) : Prop :=
  (∀ snap, s.worker = .running snap → snap = s.committed) ∧
  (s'.committed ≠ s.committed →
    s.flag = true ∧ s.pc = .top ∧ s'.pc = .direct ∧
    ∀ snap, s.worker ≠ .running snap) ∧
  (∀ snap, s.worker = .running snap → s'.committed = s.committed)

/-- Conclusion of the throttle claim, for period `T`, a reachable state `s`
and a step `s → s'`: a dispatched wake comes at least `T` after the previous
dispatch and resets the elapsed-time ghost; the dispatch path is entered only
with the timer elapsed and the flag `true`; an elapsed timer with the flag
`false` defers (timer kept, nothing sent); and from an elapsed timer with the
flag `true` the tick dispatches exactly one wake, clearing the flag and
resetting the timer. -/
def ThrottleCorrect (T : ℕ) (s s' : SchedState) : Prop :=
  (s'.sends = s.sends + 1 → T ≤ s.since ∧ s'.since = 0) ∧
  (s.pc = .observed → s.flag = true ∧ T ≤ s.timer) ∧
  (∀ dt, s.pc = .advance → s.flag = false → T ≤ s.timer + dt →
    SchedStep T s
      { s with timer := s.timer + dt, since := s.since + dt, pc := .top }) ∧
  (∀ dt, s.pc = .advance → s.flag = true → s.closed = false →
    T ≤ s.timer + dt →
    ∃ s₁ s₂ s₃, SchedStep T s s₁ ∧ SchedStep T s₁ s₂ ∧ SchedStep T s₂ s₃ ∧
      s₃.sends = s.sends + 1 ∧ s₃.flag = false ∧ s₃.timer = 0)

/-- Conclusion of the (amended) worker-loop claim, for a reachable state `s`
and a step `s → s'`: every pass beyond the initial one was preceded by a
received wake; starting a new pass consumes exactly one queued wake from the
waiting state; finishing a pass stores `true` to the flag; and the worker
exits only once the channel is closed. -/
def WorkerLoopShape (s s' : SchedState) : Prop :=
  s.passes ≤ s.wakes + 1 ∧
  (s.worker = .exited → s.closed = true) ∧
  (s'.passes = s.passes + 1 →
    s.worker = .waiting ∧ 1 ≤ s.chan ∧ s'.wakes = s.wakes + 1) ∧
  (∀ snap, s.worker = .running snap → s'.worker = .waiting →
    s'.flag = true)

/-- A concrete environment where every entity setup succeeds. -/
def allOkEnv : SourceSetupEnv where
  name := fun _ => "entity"
  settings := fun _ => some 0
  tryNewSource := fun e => .ok e

/-- The abstract decode effect used by the concrete counterexample runs:
duplicates the mixed frame (any data-independent effect does). -/
def doubleEffect : List ℤ → List ℤ := fun m => m ++ m

/-- The input accumulation vectors hold one vector per channel, all equally
filled. -/
def DecodeUniform (st : DecodeProcessor) (fill : ℕ) : Prop :=
  st.inputBuffer.length = st.numChannels ∧
  ∀ b ∈ st.inputBuffer, b.length = fill

/-- Invariant of the decode processor between `process` calls, for frame
size `f`, `max_block_frames` `B` and `c` input channels: the accumulation
vectors are uniformly filled below `f`; the two output queues are equally
long; before draining starts the queue length is a multiple of `f` below the
`1.5 × B` threshold; once draining has started, queue plus fill never drops
below `f - 1`, which keeps every in-range drain possible. -/
def DecodeInv (f B c : ℕ) (st : DecodeProcessor) : Prop :=
  st.frameSize = f ∧ st.maxBlockFrames = B ∧ st.numChannels = c ∧
  ∃ fill, DecodeUniform st fill ∧ fill < f ∧
    st.outputBuffer1.length = st.outputBuffer0.length ∧
    (if st.startedDraining then
      f - 1 ≤ st.outputBuffer0.length + fill
     else
      st.outputBuffer0.length % f = 0 ∧
        2 * st.outputBuffer0.length < 3 * B)

/-! # Theorems -/

/-- The setup loop visits every entity, collecting per-entity error messages,
insertions and lock operations in order. -/
theorem initSourceLoop_eq (env : SourceSetupEnv) (l : List ℕ) :
    initSourceLoop env l =
      (l.filterMap (initSourceOutcome env),
       l.filterMap (initSourceSuccess env),
       (l.map fun e => (initSourceStep env e).2.2).flatten) := by
  induction l with
  | nil => rfl
  | cons e rest ih =>
      simp only [initSourceLoop, ih, List.filterMap_cons, List.map_cons,
        List.flatten_cons]
      unfold initSourceStep initSourceOutcome initSourceSuccess
      cases env.settings e with
      | none => simp
      | some flags =>
          cases env.tryNewSource e with
          | error err => simp
          | ok source => simp

/-- Claim C9: when per-source simulation objects are created, a failure for
one entity (missing `SteamAudioSamplePlayer` or failed
`audionimbus::Source::try_new`) is recorded as a message carrying the
entity's name, the entity is skipped, every remaining entity is still
processed (the successful insertions are exactly the per-entity successes,
in order), and the recorded errors are aggregated into one combined error
returned at the end, with success returned exactly when no error was
recorded. -/
theorem c9_per_source_error_aggregation (env : SourceSetupEnv)
    (toSetup : List ℕ) :
    (initAudionimbusSources env toSetup).1.2.1 =
      toSetup.filterMap (initSourceSuccess env) ∧
    (initAudionimbusSources env toSetup).1.1 =
      toSetup.filterMap (initSourceOutcome env) ∧
    ((initAudionimbusSources env toSetup).2 = .ok () ↔
      (initAudionimbusSources env toSetup).1.1 = []) ∧
    ((initAudionimbusSources env toSetup).1.1 ≠ [] →
      (initAudionimbusSources env toSetup).2 =
        .error (String.intercalate "\n"
          (initAudionimbusSources env toSetup).1.1)) := by
  unfold initAudionimbusSources
  rw [initSourceLoop_eq]
  dsimp only
  refine ⟨rfl, rfl, ?_, ?_⟩
  · by_cases he : List.filterMap (initSourceOutcome env) toSetup = []
    · simp [he]
    · simp [he, List.isEmpty_iff]
  · intro h
    rw [if_neg (by simpa [List.isEmpty_iff] using h)]

/-- Witness for C9 at a concrete input: one entity that succeeds, one with a
missing component, one whose engine-source creation fails. -/
theorem c9_witness :
    (initAudionimbusSources
        ⟨fun e => toString e,
         fun e => if e = 1 then none else some 0,
         fun e => if e = 2 then .error "boom" else .ok e⟩
        [0, 1, 2]).1.2.1 = [(0, 0)] ∧
    (initAudionimbusSources
        ⟨fun e => toString e,
         fun e => if e = 1 then none else some 0,
         fun e => if e = 2 then .error "boom" else .ok e⟩
        [0, 1, 2]).2 =
      .error ("1 Failed to get SteamAudioSamplePlayer\n" ++
        "2 Failed to create AudionimbusSource: boom") := by
  have h := c9_per_source_error_aggregation
    ⟨fun e => toString e,
     fun e => if e = 1 then none else some 0,
     fun e => if e = 2 then .error "boom" else .ok e⟩
    [0, 1, 2]
  refine ⟨?_, ?_⟩
  · rw [h.1]; rfl
  · rw [h.2.2.2 (by rw [h.2.1]; decide), h.2.1]; rfl

/-- The number of `write` lock acquisitions the setup loop performs equals
the number of sources it successfully creates. -/
theorem initSourceLoop_write_count (env : SourceSetupEnv) (l : List ℕ) :
    ((initSourceLoop env l).2.2.count .write) =
      (l.filterMap (initSourceSuccess env)).length := by
  induction l with
  | nil => rfl
  | cons e rest ih =>
      simp only [initSourceLoop, List.filterMap_cons]
      unfold initSourceStep initSourceSuccess
      cases env.settings e with
      | none => simpa using ih
      | some flags =>
          cases env.tryNewSource e with
          | error err => simpa [List.count_cons] using ih
          | ok source => simpa [List.count_cons] using ih

/-- Counterexample to claim C5 as stated: in
`crates/bevy_steam_audio/src/simulation.rs` the worker's expensive pass takes
a read lock, not a write lock, and the foreground `init_audionimbus_sources`
(`src/sources.rs`) takes the write lock (`simulator.write().unwrap()
.add_source(..)`) for a successfully created source — so the expensive pass
is not the only place a write lock is taken, and the foreground does not use
only read locks. -/
theorem c5_counterexample :
    workerExpensivePassLocks = [LockOp.read] ∧
    LockOp.write ∈ (initAudionimbusSources allOkEnv [0]).1.2.2 ∧
    LockOp.tryWrite ∈ updateSimulationLocks true := by
  refine ⟨rfl, ?_, ?_⟩ <;> decide

/-- Amended claim C5: in `crates/bevy_steam_audio` the worker's expensive
pass holds a read lock on the engine, while the scheduler takes a try-write
lock for the flag-gated commit (and only then) and a try-read lock for the
direct pass; in the top-level crate the worker's pass holds the write lock,
but the foreground `init_audionimbus_sources` also takes the write lock,
once per successfully created source. -/
theorem c5_amended_lock_usage (env : SourceSetupEnv) (toSetup : List ℕ)
    (complete : Bool) :
    workerExpensivePassLocks = [.read] ∧
    workerExpensivePassLocksTopLevel = [.write] ∧
    (LockOp.tryWrite ∈ updateSimulationLocks complete ↔ complete = true) ∧
    LockOp.tryRead ∈ updateSimulationLocks complete ∧
    ((initAudionimbusSources env toSetup).1.2.2.count .write =
      ((initAudionimbusSources env toSetup).1.2.1).length) := by
  refine ⟨rfl, rfl, ?_, ?_, ?_⟩
  · cases complete <;> simp [updateSimulationLocks]
  · cases complete <;> simp [updateSimulationLocks]
  · unfold initAudionimbusSources
    rw [initSourceLoop_write_count, initSourceLoop_eq]

/-- Witness for C5's amended claim at a concrete input. -/
theorem c5_amended_witness :
    (LockOp.tryWrite ∈ updateSimulationLocks false ↔ false = true) ∧
    (initAudionimbusSources allOkEnv [0, 1]).1.2.2.count .write = 2 := by
  have h := c5_amended_lock_usage allOkEnv [0, 1] false
  exact ⟨h.2.2.1, by rw [h.2.2.2.2]; rfl⟩

/-- Counterexample to claim C7 as stated: with frame size 2 and
`max_block_frames` 2, two non-silent two-sample calls start draining
(`started_draining = true`, two samples still queued); a third call whose
input channels are all silent then returns `ClearAllOutputs` and drains
nothing (the queue still holds two samples) — although draining had started,
the call neither drains the requested frames nor returns a modified
status. -/
theorem c7_counterexample :
    ((DecodeProcessor.run doubleEffect (DecodeProcessor.construct 2 2 1)
        [⟨2, false, [[0, 0]]⟩, ⟨2, false, [[0, 0]]⟩]).map
      fun r => (r.2.startedDraining, r.2.outputBuffer0.length)) =
        .ok (true, 2) ∧
    ((DecodeProcessor.run doubleEffect (DecodeProcessor.construct 2 2 1)
        [⟨2, false, [[0, 0]]⟩, ⟨2, false, [[0, 0]]⟩, ⟨2, true, [[0, 0]]⟩]).map
      fun r => (r.1.map Prod.fst, r.2.startedDraining,
        r.2.outputBuffer0.length)) =
      .ok ([.clearAllOutputs, .outputsModified, .clearAllOutputs],
        true, 2) := by
  constructor <;> rfl

/-- Claim C8 at the failing input: frame size 4, `max_block_frames` 4 (so
output capacity `4 × 2 = 8`), all block lengths at most 4.  After the block
sequence `3, 4, 4, 1, 4` the fifth call's frame flush extends an output
queue holding 7 samples by 4, past its reserved capacity of 8: the `Vec`
reallocates (capacity 16) and the processor's own `validate_capacity` defect
check fires (`allocWarnings = 1`) — `process` does change buffer capacities
in steady state, contradicting both the specification and the code's own
defect assertion. -/
theorem c8_steady_state_allocation :
    ((DecodeProcessor.run doubleEffect (DecodeProcessor.construct 4 4 1)
        [⟨3, false, [[0, 0, 0]]⟩, ⟨4, false, [[0, 0, 0, 0]]⟩,
         ⟨4, false, [[0, 0, 0, 0]]⟩, ⟨1, false, [[0]]⟩,
         ⟨4, false, [[0, 0, 0, 0]]⟩]).map
      fun r => (r.2.allocWarnings, r.2.outCap0, r.2.outCap1)) =
      .ok (1, 16, 16) := by
  rfl

/-- Counterexample to claim C10 as stated: with frame size 6 and
`max_block_frames` 8 every block length below (4, 8 and 5 are all at most
8), yet after draining starts the third call requests 5 output frames while
only 4 samples are queued: `src.drain(..output_len)` is out of bounds and
the process call panics. -/
theorem c10_counterexample :
    DecodeProcessor.run doubleEffect (DecodeProcessor.construct 6 8 1)
      [⟨4, false, [[0, 0, 0, 0]]⟩, ⟨8, false, [[0, 0, 0, 0, 0, 0, 0, 0]]⟩,
       ⟨5, false, [[0, 0, 0, 0, 0]]⟩] =
      .error "Vec::drain range end out of bounds" := by
  rfl

/-- The protocol invariant holds in the initial state. -/
theorem schedInv_init (T : ℕ) : SchedInv T SchedState.init := by
  refine ⟨?_, ?_, ?_, ?_, ?_, ?_, ?_, ?_⟩ <;>
    simp [SchedState.init, SchedInv]

/-- The protocol invariant is preserved by every transition. -/
theorem schedInv_step {T : ℕ} {s s' : SchedState} (h : SchedInv T s)
    (hs : SchedStep T s s') : SchedInv T s' := by
  obtain ⟨hf, hrun, hch, hex, hobs, hstd, hts, hpw⟩ := h
  cases hs with
  | enqueue e =>
      exact ⟨hf, hrun, hch, hex, hobs, hstd, hts, hpw⟩
  | topCommit hpc hflag =>
      refine ⟨fun h1 => hf h1, ?_, hch, hex, ?_, ?_, hts, hpw⟩
      · intro snap hsnap
        rcases (hf hflag).1 with hw | hw <;> rw [hw] at hsnap <;>
          exact WorkerPhase.noConfusion hsnap
      · intro hpc'; exact absurd hpc' (by simp)
      · intro hpc'; exact absurd hpc' (by simp)
  | topSkip hpc hflag =>
      refine ⟨hf, hrun, hch, hex, ?_, ?_, hts, hpw⟩
      · intro hpc'; exact absurd hpc' (by simp)
      · intro hpc'; exact absurd hpc' (by simp)
  | directPass hpc =>
      refine ⟨hf, hrun, hch, hex, ?_, ?_, hts, hpw⟩
      · intro hpc'; exact absurd hpc' (by simp)
      · intro hpc'; exact absurd hpc' (by simp)
  | tickNotElapsed dt hpc hlt =>
      refine ⟨hf, hrun, hch, hex, ?_, ?_, Nat.add_le_add_right hts dt, hpw⟩
      · intro hpc'; exact absurd hpc' (by simp)
      · intro hpc'; exact absurd hpc' (by simp)
  | tickBusy dt hpc hle hflag =>
      refine ⟨hf, hrun, hch, hex, ?_, ?_, Nat.add_le_add_right hts dt, hpw⟩
      · intro hpc'; exact absurd hpc' (by simp)
      · intro hpc'; exact absurd hpc' (by simp)
  | tickReady dt hpc hle hflag =>
      refine ⟨hf, hrun, hch, hex, ?_, ?_, Nat.add_le_add_right hts dt, hpw⟩
      · intro _; exact ⟨hflag, hle, (hf hflag).1⟩
      · intro hpc'; exact absurd hpc' (by simp)
  | storeReset hpc =>
      obtain ⟨hfl, htm, hnr⟩ := hobs hpc
      refine ⟨?_, ?_, hch, hex, ?_, ?_, Nat.zero_le _, hpw⟩
      · intro h1; exact absurd h1 (by simp)
      · intro snap hsnap
        rcases hnr with hw | hw <;> rw [hw] at hsnap <;>
          exact WorkerPhase.noConfusion hsnap
      · intro hpc'; exact absurd hpc' (by simp)
      · intro _
        exact ⟨rfl, (hf hfl).2, le_trans htm hts, hnr, rfl⟩
  | send hpc hcl =>
      obtain ⟨hfl, hch0, hsince, hnr, htm0⟩ := hstd hpc
      refine ⟨?_, ?_, ?_, ?_, ?_, ?_, ?_, hpw⟩
      · intro h1; rw [hfl] at h1; exact Bool.noConfusion h1
      · intro snap hsnap
        rcases hnr with hw | hw <;> rw [hw] at hsnap <;>
          exact WorkerPhase.noConfusion hsnap
      · simp [hch0]
      · intro hxw
        exact absurd hcl (by simp [(hex hxw).1])
      · intro hpc'; exact absurd hpc' (by simp)
      · intro hpc'; exact absurd hpc' (by simp)
      · simp [htm0]
  | sendClosed hpc hcl =>
      refine ⟨hf, hrun, hch, hex, ?_, ?_, hts, hpw⟩
      · intro hpc'; exact absurd hpc' (by simp)
      · intro hpc'; exact absurd hpc' (by simp)
  | workerFinish snap hw =>
      refine ⟨?_, ?_, hch, ?_, ?_, ?_, hts, hpw⟩
      · intro _; exact ⟨Or.inl rfl, (hrun snap hw).2.1⟩
      · intro snap' hsnap'; exact WorkerPhase.noConfusion hsnap'
      · intro hxw; exact WorkerPhase.noConfusion hxw
      · intro hpc'; exact ⟨rfl, (hobs hpc').2.1, Or.inl rfl⟩
      · intro hpc'
        rcases (hstd hpc').2.2.2.1 with hww | hww <;> rw [hww] at hw <;>
          exact WorkerPhase.noConfusion hw
  | workerRecv hw hc =>
      have hflagf : s.flag = false := by
        cases hfl : s.flag
        · rfl
        · exact absurd hc (by simp [(hf hfl).2])
      refine ⟨?_, ?_, ?_, ?_, ?_, ?_, hts, ?_⟩
      · intro h1; rw [hflagf] at h1; exact Bool.noConfusion h1
      · intro snap' hsnap'
        have hsnap'' : s.committed = snap' := by
          exact WorkerPhase.running.inj hsnap'
        refine ⟨hflagf, ?_, hsnap''.symm⟩
        show s.chan - 1 = 0
        omega
      · show s.chan - 1 ≤ 1
        omega
      · intro hxw; exact WorkerPhase.noConfusion hxw
      · intro hpc'
        exact absurd hc (by simp [(hf (hobs hpc').1).2])
      · intro hpc'
        exact absurd hc (by simp [(hstd hpc').2.1])
      · show s.passes + 1 ≤ s.wakes + 1 + 1
        omega
  | workerExit hw hc hcl =>
      refine ⟨?_, ?_, hch, ?_, ?_, ?_, hts, hpw⟩
      · intro h1; exact ⟨Or.inr rfl, (hf h1).2⟩
      · intro snap' hsnap'; exact WorkerPhase.noConfusion hsnap'
      · intro _; exact ⟨hcl, hc⟩
      · intro hpc'; exact ⟨(hobs hpc').1, (hobs hpc').2.1, Or.inr rfl⟩
      · intro hpc'
        obtain ⟨a, b, c, _, e⟩ := hstd hpc'
        exact ⟨a, b, c, Or.inr rfl, e⟩
  | close =>
      refine ⟨hf, hrun, hch, ?_, hobs, hstd, hts, hpw⟩
      intro hxw; exact ⟨rfl, (hex hxw).2⟩

/-- The protocol invariant holds in every reachable state. -/
theorem schedInv_reachable {T : ℕ} {s : SchedState}
    (h : SchedReachable T s) : SchedInv T s := by
  induction h with
  | refl => exact schedInv_init T
  | tail _ hstep ih => exact schedInv_step ih hstep

/-- Claim C2: under every interleaving, the scheduler sends a wake only from
the dispatch point reached by observing the completion flag `true`, having
already stored `false` to the flag before the send; consequently at most one
wake is ever queued, and while an expensive pass is in flight no wake is
queued and the flag is `false` — the worker is never woken a second time
before the flag transitions to `true` after the first wake. -/
theorem c2_wake_discipline (T : ℕ) (s s' : SchedState)
    (hr : SchedReachable T s) (hstep : SchedStep T s s') :
    WakeDiscipline s s' := by
  have hinv := schedInv_reachable hr
  have hinv' := schedInv_step hinv hstep
  obtain ⟨hf, hrun, hch, hex, hobs, hstd, hts, hpw⟩ := hinv
  refine ⟨?_, fun hpc => (hobs hpc).1, hinv'.2.2.1,
    fun snap hsnap => ⟨(hinv'.2.1 snap hsnap).2.1,
      (hinv'.2.1 snap hsnap).1⟩⟩
  intro hsend
  cases hstep with
  | send hpc hcl => exact ⟨hpc, (hstd hpc).1, (hstd hpc).2.1⟩
  | enqueue e => exact absurd hsend (by simp)
  | topCommit hpc hflag => exact absurd hsend (by simp)
  | topSkip hpc hflag => exact absurd hsend (by simp)
  | directPass hpc => exact absurd hsend (by simp)
  | tickNotElapsed dt hpc h => exact absurd hsend (by simp)
  | tickBusy dt hpc h hflag => exact absurd hsend (by simp)
  | tickReady dt hpc h hflag => exact absurd hsend (by simp)
  | storeReset hpc => exact absurd hsend (by simp)
  | sendClosed hpc hcl => exact absurd hsend (by simp)
  | workerFinish snap hw => exact absurd hsend (by simp)
  | workerRecv hw hc => exact absurd hsend (by simp)
  | workerExit hw hc hcl => exact absurd hsend (by simp)
  | close => exact absurd hsend (by simp)

/-- Witness for C2 at a concrete input: the initial state and an edit-queue
step. -/
theorem c2_witness :
    SchedReachable 1 SchedState.init ∧
    SchedStep 1 SchedState.init
      { SchedState.init with pending := [0] } ∧
    WakeDiscipline SchedState.init
      { SchedState.init with pending := [0] } :=
  ⟨.refl, .enqueue SchedState.init 0,
    c2_wake_discipline 1 SchedState.init _ .refl
      (.enqueue SchedState.init 0)⟩

/-- Claim C3: scene and engine commits execute only in a tick whose top-of-
tick flag load returned `true`, before that tick's direct pass, and never
while an expensive pass is in flight; an in-flight pass observes exactly the
scene that was committed when it started, so a mutation enqueued while the
flag is `false` is never visible to a pass that started before the flag next
became `true`. -/
theorem c3_commit_ordering (T : ℕ) (s s' : SchedState)
    (hr : SchedReachable T s) (hstep : SchedStep T s s') :
    CommitOrdering s s' := by
  have hinv := schedInv_reachable hr
  obtain ⟨hf, hrun, hch, hex, hobs, hstd, hts, hpw⟩ := hinv
  refine ⟨fun snap hsnap => (hrun snap hsnap).2.2, ?_, ?_⟩
  · intro hne
    cases hstep with
    | topCommit hpc hflag =>
        refine ⟨hflag, hpc, rfl, ?_⟩
        intro snap hsnap
        rcases (hf hflag).1 with hw | hw <;> rw [hw] at hsnap <;>
          exact WorkerPhase.noConfusion hsnap
    | enqueue e => exact absurd rfl hne
    | topSkip hpc hflag => exact absurd rfl hne
    | directPass hpc => exact absurd rfl hne
    | tickNotElapsed dt hpc h => exact absurd rfl hne
    | tickBusy dt hpc h hflag => exact absurd rfl hne
    | tickReady dt hpc h hflag => exact absurd rfl hne
    | storeReset hpc => exact absurd rfl hne
    | send hpc hcl => exact absurd rfl hne
    | sendClosed hpc hcl => exact absurd rfl hne
    | workerFinish snap hw => exact absurd rfl hne
    | workerRecv hw hc => exact absurd rfl hne
    | workerExit hw hc hcl => exact absurd rfl hne
    | close => exact absurd rfl hne
  · intro snap hsnap
    cases hstep with
    | topCommit hpc hflag =>
        rcases (hf hflag).1 with hw | hw <;> rw [hw] at hsnap <;>
          exact WorkerPhase.noConfusion hsnap
    | enqueue e => rfl
    | topSkip hpc hflag => rfl
    | directPass hpc => rfl
    | tickNotElapsed dt hpc h => rfl
    | tickBusy dt hpc h hflag => rfl
    | tickReady dt hpc h hflag => rfl
    | storeReset hpc => rfl
    | send hpc hcl => rfl
    | sendClosed hpc hcl => rfl
    | workerFinish snap hw => rfl
    | workerRecv hw hc => rfl
    | workerExit hw hc hcl => rfl
    | close => rfl

/-- Witness for C3 at a concrete input: the initial state and an edit-queue
step. -/
theorem c3_witness :
    SchedReachable 1 SchedState.init ∧
    SchedStep 1 SchedState.init
      { SchedState.init with pending := [0] } ∧
    CommitOrdering SchedState.init
      { SchedState.init with pending := [0] } :=
  ⟨.refl, .enqueue SchedState.init 0,
    c3_commit_ordering 1 SchedState.init _ .refl
      (.enqueue SchedState.init 0)⟩

/-- Claim C4: the throttle timer is ticked on every tick of the enabled
scheduler; a dispatch (flag cleared, timer reset, wake sent) happens only
with the timer elapsed and the flag `true`, and any two dispatches are at
least the period `T` apart; when the timer elapses while the flag is `false`
the tick defers without resetting the timer; and once the timer is elapsed
with the flag `true`, the tick dispatches exactly one wake, clearing the
flag and resetting the timer. -/
theorem c4_throttle_correct (T : ℕ) (s s' : SchedState)
    (hr : SchedReachable T s) (hstep : SchedStep T s s') :
    ThrottleCorrect T s s' := by
  have hinv := schedInv_reachable hr
  obtain ⟨hf, hrun, hch, hex, hobs, hstd, hts, hpw⟩ := hinv
  refine ⟨?_, fun hpc => ⟨(hobs hpc).1, (hobs hpc).2.1⟩, ?_, ?_⟩
  · intro hsend
    cases hstep with
    | send hpc hcl => exact ⟨(hstd hpc).2.2.1, rfl⟩
    | enqueue e => exact absurd hsend (by simp)
    | topCommit hpc hflag => exact absurd hsend (by simp)
    | topSkip hpc hflag => exact absurd hsend (by simp)
    | directPass hpc => exact absurd hsend (by simp)
    | tickNotElapsed dt hpc h => exact absurd hsend (by simp)
    | tickBusy dt hpc h hflag => exact absurd hsend (by simp)
    | tickReady dt hpc h hflag => exact absurd hsend (by simp)
    | storeReset hpc => exact absurd hsend (by simp)
    | sendClosed hpc hcl => exact absurd hsend (by simp)
    | workerFinish snap hw => exact absurd hsend (by simp)
    | workerRecv hw hc => exact absurd hsend (by simp)
    | workerExit hw hc hcl => exact absurd hsend (by simp)
    | close => exact absurd hsend (by simp)
  · intro dt hpc hflag hle
    exact .tickBusy s dt hpc hle hflag
  · intro dt hpc hflag hcl hle
    refine ⟨_, _, _, .tickReady s dt hpc hle hflag,
      .storeReset _ rfl, .send _ rfl hcl, rfl, rfl, rfl⟩

/-- Witness for C4 at a concrete input: the initial state and an edit-queue
step. -/
theorem c4_witness :
    SchedReachable 1 SchedState.init ∧
    SchedStep 1 SchedState.init
      { SchedState.init with pending := [0] } ∧
    ThrottleCorrect 1 SchedState.init
      { SchedState.init with pending := [0] } :=
  ⟨.refl, .enqueue SchedState.init 0,
    c4_throttle_correct 1 SchedState.init _ .refl
      (.enqueue SchedState.init 0)⟩

/-- Counterexample to claim C6 as stated: in the initial, trivially
reachable state right after `create_simulator`, the worker is already
running an expensive pass although no wake was ever sent or received — the
worker's loop body runs the pass first and waits for a wake only
afterwards, so the first pass is not preceded by any wake. -/
theorem c6_counterexample :
    SchedReachable 1 SchedState.init ∧
    SchedState.init.worker = .running [] ∧
    SchedState.init.wakes = 0 ∧ SchedState.init.sends = 0 :=
  ⟨.refl, rfl, rfl, rfl⟩

/-- Amended claim C6: the worker's loop runs the expensive pass first (one
initial pass starts at spawn time, before any wake), stores `true` to the
completion flag after each pass, and only then waits; every pass beyond the
initial one consumes exactly one received wake, and the worker exits only
once the wake channel is closed. -/
theorem c6_worker_loop (T : ℕ) (s s' : SchedState)
    (hr : SchedReachable T s) (hstep : SchedStep T s s') :
    WorkerLoopShape s s' := by
  have hinv := schedInv_reachable hr
  obtain ⟨hf, hrun, hch, hex, hobs, hstd, hts, hpw⟩ := hinv
  refine ⟨hpw, fun hxw => (hex hxw).1, ?_, ?_⟩
  · intro hpass
    cases hstep with
    | workerRecv hw hc => exact ⟨hw, hc, rfl⟩
    | enqueue e => exact absurd hpass (by simp)
    | topCommit hpc hflag => exact absurd hpass (by simp)
    | topSkip hpc hflag => exact absurd hpass (by simp)
    | directPass hpc => exact absurd hpass (by simp)
    | tickNotElapsed dt hpc h => exact absurd hpass (by simp)
    | tickBusy dt hpc h hflag => exact absurd hpass (by simp)
    | tickReady dt hpc h hflag => exact absurd hpass (by simp)
    | storeReset hpc => exact absurd hpass (by simp)
    | send hpc hcl => exact absurd hpass (by simp)
    | sendClosed hpc hcl => exact absurd hpass (by simp)
    | workerFinish snap hw => exact absurd hpass (by simp)
    | workerExit hw hc hcl => exact absurd hpass (by simp)
    | close => exact absurd hpass (by simp)
  · intro snap hsnap hwait
    cases hstep with
    | workerFinish snap' hw => rfl
    | enqueue e => rw [hsnap] at hwait; exact WorkerPhase.noConfusion hwait
    | topCommit hpc hflag =>
        rw [hsnap] at hwait; exact WorkerPhase.noConfusion hwait
    | topSkip hpc hflag =>
        rw [hsnap] at hwait; exact WorkerPhase.noConfusion hwait
    | directPass hpc =>
        rw [hsnap] at hwait; exact WorkerPhase.noConfusion hwait
    | tickNotElapsed dt hpc h =>
        rw [hsnap] at hwait; exact WorkerPhase.noConfusion hwait
    | tickBusy dt hpc h hflag =>
        rw [hsnap] at hwait; exact WorkerPhase.noConfusion hwait
    | tickReady dt hpc h hflag =>
        rw [hsnap] at hwait; exact WorkerPhase.noConfusion hwait
    | storeReset hpc =>
        rw [hsnap] at hwait; exact WorkerPhase.noConfusion hwait
    | send hpc hcl =>
        rw [hsnap] at hwait; exact WorkerPhase.noConfusion hwait
    | sendClosed hpc hcl =>
        rw [hsnap] at hwait; exact WorkerPhase.noConfusion hwait
    | workerRecv hw hc =>
        rw [hw] at hsnap; exact WorkerPhase.noConfusion hsnap
    | workerExit hw hc hcl =>
        rw [hw] at hsnap; exact WorkerPhase.noConfusion hsnap
    | close =>
        rw [hsnap] at hwait; exact WorkerPhase.noConfusion hwait

/-- Witness for the amended C6 at a concrete input: the initial state and
the worker finishing its initial pass. -/
theorem c6_witness :
    SchedReachable 1 SchedState.init ∧
    SchedStep 1 SchedState.init
      { SchedState.init with flag := true, worker := .waiting } ∧
    WorkerLoopShape SchedState.init
      { SchedState.init with flag := true, worker := .waiting } :=
  ⟨.refl, .workerFinish SchedState.init [] rfl,
    c6_worker_loop 1 SchedState.init _ .refl
      (.workerFinish SchedState.init [] rfl)⟩

/-- The accumulation loop never touches the processor's scalar
configuration or the draining flag. -/
theorem accumFrames_preserves (effect : List ℤ → List ℤ)
    (inputs : List (List ℤ)) (n : ℕ) (st : DecodeProcessor) :
    (st.accumFrames effect inputs n).startedDraining = st.startedDraining ∧
    (st.accumFrames effect inputs n).maxBlockFrames = st.maxBlockFrames ∧
    (st.accumFrames effect inputs n).frameSize = st.frameSize ∧
    (st.accumFrames effect inputs n).numChannels = st.numChannels := by
  induction n with
  | zero => exact ⟨rfl, rfl, rfl, rfl⟩
  | succ n ih =>
      unfold DecodeProcessor.accumFrames
      dsimp only
      split
      · exact ih
      · exact ih

/-- Pushing one sample per channel keeps the channel count and extends every
channel's fill by one. -/
theorem pushChannels_uniform :
    ∀ (xs ys : List (List ℤ)) (m n : ℕ), ys.length = xs.length →
      (∀ b ∈ xs, b.length = m) →
      (List.zipWith (fun dst src => dst ++ [src.getD n 0]) xs ys).length
          = xs.length ∧
      (∀ b ∈ List.zipWith (fun dst src => dst ++ [src.getD n 0]) xs ys,
        b.length = m + 1)
  | [], ys, m, n, hlen, huni => by simp
  | x :: xs, [], m, n, hlen, huni => by simp at hlen
  | x :: xs, y :: ys, m, n, hlen, huni => by
      obtain ⟨hl, hu⟩ := pushChannels_uniform xs ys m n
        (by simpa using hlen) (fun b hb => huni b (List.mem_cons_of_mem _ hb))
      refine ⟨by simpa using hl, ?_⟩
      intro b hb
      rcases List.mem_cons.mp hb with hb | hb
      · subst hb
        simp [huni x (List.mem_cons_self _ _)]
      · exact hu b hb

/-- In a nonempty uniformly-filled channel family, the head channel has the
common fill. -/
theorem headD_uniform (l : List (List ℤ)) (m : ℕ) (hne : 1 ≤ l.length)
    (huni : ∀ b ∈ l, b.length = m) : (l.headD []).length = m := by
  cases l with
  | nil => simp at hne
  | cons a t => exact huni a (List.mem_cons_self _ _)

/-- Incrementing a counter either stays inside the current frame or
completes it. -/
theorem succ_div_mod (a f : ℕ) (hf : 1 ≤ f) :
    (a % f + 1 = f → (a + 1) % f = 0 ∧ (a + 1) / f = a / f + 1) ∧
    (a % f + 1 < f → (a + 1) % f = a % f + 1 ∧ (a + 1) / f = a / f) := by
  have hdm := Nat.div_add_mod a f
  constructor
  · intro hfull
    have ha : a + 1 = f * (a / f + 1) := by
      rw [Nat.mul_add, Nat.mul_one]; omega
    rw [ha]
    exact ⟨Nat.mul_mod_right f _, Nat.mul_div_cancel_left _ (by omega)⟩
  · intro hlt
    have ha : a + 1 = (a % f + 1) + f * (a / f) := by omega
    rw [ha]
    constructor
    · rw [Nat.add_mul_mod_self_left]
      exact Nat.mod_eq_of_lt hlt
    · rw [Nat.add_mul_div_left _ _ (by omega : 0 < f)]
      rw [Nat.div_eq_of_lt hlt]
      omega

/-- Effect of the accumulation loop on the shapes: channels stay uniform,
the fill becomes `(fill + n) mod f`, and each output queue grows by `f`
samples per completed frame, `(fill + n) / f` frames in total. -/
theorem accumFrames_spec (effect : List ℤ → List ℤ)
    (inputs : List (List ℤ)) (n : ℕ) (st : DecodeProcessor) (fill : ℕ)
    (hf : 1 ≤ st.frameSize) (hc : 1 ≤ st.inputBuffer.length)
    (hlen : inputs.length = st.inputBuffer.length)
    (huni : ∀ b ∈ st.inputBuffer, b.length = fill)
    (hfill : fill < st.frameSize) :
    (st.accumFrames effect inputs n).inputBuffer.length
        = st.inputBuffer.length ∧
    (∀ b ∈ (st.accumFrames effect inputs n).inputBuffer,
      b.length = (fill + n) % st.frameSize) ∧
    (st.accumFrames effect inputs n).outputBuffer0.length
        = st.outputBuffer0.length
          + st.frameSize * ((fill + n) / st.frameSize) ∧
    (st.accumFrames effect inputs n).outputBuffer1.length
        = st.outputBuffer1.length
          + st.frameSize * ((fill + n) / st.frameSize) := by
  induction n with
  | zero =>
      refine ⟨rfl, ?_, ?_, ?_⟩
      · intro b hb
        rw [Nat.mod_eq_of_lt (by simpa using hfill)]
        exact huni b hb
      · rw [Nat.div_eq_of_lt (by simpa using hfill), Nat.mul_zero,
          Nat.add_zero]
        rfl
      · rw [Nat.div_eq_of_lt (by simpa using hfill), Nat.mul_zero,
          Nat.add_zero]
        rfl
  | succ n ih =>
      obtain ⟨ihlen, ihuni, ihq0, ihq1⟩ := ih
      obtain ⟨hsd, hmb, hfs, hnc⟩ := accumFrames_preserves effect inputs n st
      set A := st.accumFrames effect inputs n with hA
      set m := (fill + n) % st.frameSize with hm
      have hmlt : m < st.frameSize := Nat.mod_lt _ (by omega)
      obtain ⟨hplen, hpuni⟩ := pushChannels_uniform A.inputBuffer inputs m n
        (by rw [hlen, ihlen]) ihuni
      have hphead :
          ((A.pushInputFrame inputs n).inputBuffer.headD []).length
            = m + 1 := by
        unfold DecodeProcessor.pushInputFrame
        exact headD_uniform _ _ (by simp only [hplen]; omega) hpuni
      unfold DecodeProcessor.accumFrames
      dsimp only
      rw [← hA]
      have hdm := succ_div_mod (fill + n) st.frameSize hf
      by_cases hfull : m + 1 = st.frameSize
      · rw [if_pos ?_]
        swap
        · show ((A.pushInputFrame inputs n).inputBuffer.headD []).length
            = (A.pushInputFrame inputs n).frameSize
          rw [hphead]
          show m + 1 = A.frameSize
          rw [hfs]; exact hfull
        obtain ⟨hmod, hdiv⟩ := hdm.1 (by rw [← hm]; exact hfull)
        refine ⟨?_, ?_, ?_, ?_⟩
        · show ((A.pushInputFrame inputs n).inputBuffer.map
            (fun _ => ([] : List ℤ))).length = st.inputBuffer.length
          rw [List.length_map]
          show (A.pushInputFrame inputs n).inputBuffer.length
            = st.inputBuffer.length
          unfold DecodeProcessor.pushInputFrame
          rw [hplen, ihlen]
        · intro b hb
          simp only [DecodeProcessor.flushFrame, DecodeProcessor.pushInputFrame,
            List.mem_map] at hb
          obtain ⟨_, _, hb⟩ := hb
          rw [← hb]
          show 0 = (fill + (n + 1)) % st.frameSize
          rw [show fill + (n + 1) = (fill + n) + 1 by omega, hmod]
        · show ((A.pushInputFrame inputs n).outputBuffer0
              ++ (List.takeD (2 * (A.pushInputFrame inputs n).frameSize)
                    (effect ((A.pushInputFrame inputs n).inputBuffer.flatten))
                    0).take (A.pushInputFrame inputs n).frameSize).length
            = st.outputBuffer0.length
              + st.frameSize * ((fill + (n + 1)) / st.frameSize)
          rw [List.length_append, List.length_take, List.takeD_length]
          show A.outputBuffer0.length + min A.frameSize (2 * A.frameSize)
            = st.outputBuffer0.length
              + st.frameSize * ((fill + (n + 1)) / st.frameSize)
          rw [ihq0, hfs, Nat.min_eq_left (by omega),
            show fill + (n + 1) = (fill + n) + 1 by omega, hdiv]
          ring
        · show ((A.pushInputFrame inputs n).outputBuffer1
              ++ (List.takeD (2 * (A.pushInputFrame inputs n).frameSize)
                    (effect ((A.pushInputFrame inputs n).inputBuffer.flatten))
                    0).drop (A.pushInputFrame inputs n).frameSize).length
            = st.outputBuffer1.length
              + st.frameSize * ((fill + (n + 1)) / st.frameSize)
          rw [List.length_append, List.length_drop, List.takeD_length]
          show A.outputBuffer1.length + (2 * A.frameSize - A.frameSize)
            = st.outputBuffer1.length
              + st.frameSize * ((fill + (n + 1)) / st.frameSize)
          rw [ihq1, hfs, show 2 * st.frameSize - st.frameSize = st.frameSize
              by omega,
            show fill + (n + 1) = (fill + n) + 1 by omega, hdiv]
          ring
      · rw [if_neg ?_]
        swap
        · show ¬(((A.pushInputFrame inputs n).inputBuffer.headD []).length
            = (A.pushInputFrame inputs n).frameSize)
          rw [hphead]
          show ¬(m + 1 = A.frameSize)
          rw [hfs]; exact hfull
        obtain ⟨hmod, hdiv⟩ := hdm.2 (by omega)
        refine ⟨?_, ?_, ?_, ?_⟩
        · show (A.pushInputFrame inputs n).inputBuffer.length
            = st.inputBuffer.length
          unfold DecodeProcessor.pushInputFrame
          rw [hplen, ihlen]
        · intro b hb
          rw [show fill + (n + 1) = (fill + n) + 1 by omega, hmod]
          exact hpuni b hb
        · show A.outputBuffer0.length = st.outputBuffer0.length
            + st.frameSize * ((fill + (n + 1)) / st.frameSize)
          rw [ihq0, show fill + (n + 1) = (fill + n) + 1 by omega, hdiv]
        · show A.outputBuffer1.length = st.outputBuffer1.length
            + st.frameSize * ((fill + (n + 1)) / st.frameSize)
          rw [ihq1, show fill + (n + 1) = (fill + n) + 1 by omega, hdiv]

/-- `validate_capacity` only ever touches the warning count, so it preserves
the processor invariant. -/
theorem validateCapacity_inv (f B c : ℕ) (st : DecodeProcessor) (cap : ℕ)
    (h : DecodeInv f B c st) : DecodeInv f B c (st.validateCapacity cap) := by
  unfold DecodeProcessor.validateCapacity
  split
  · exact h
  · exact h

/-- `validate_capacity` leaves all buffers and the draining flag unchanged. -/
theorem validateCapacity_fields (st : DecodeProcessor) (cap : ℕ) :
    (st.validateCapacity cap).outputBuffer0 = st.outputBuffer0 ∧
    (st.validateCapacity cap).outputBuffer1 = st.outputBuffer1 ∧
    (st.validateCapacity cap).startedDraining = st.startedDraining ∧
    (st.validateCapacity cap).inputBuffer = st.inputBuffer := by
  unfold DecodeProcessor.validateCapacity
  split
  · exact ⟨rfl, rfl, rfl, rfl⟩
  · exact ⟨rfl, rfl, rfl, rfl⟩

/-- Under the drain-safety side condition
`B + (f-1) ≤ f * ⌈⌈1.5B⌉ / f⌉`, one `process` call from an invariant state
cannot panic, and the invariant is maintained. -/
theorem process_ok_inv (f B c : ℕ) (effect : List ℤ → List ℤ)
    (st : DecodeProcessor) (call : DecodeCall)
    (hf : 1 ≤ f) (hc : 1 ≤ c)
    (hsafe : B + (f - 1) ≤ f * (((3 * B + 1) / 2 + (f - 1)) / f))
    (hframes : call.frames ≤ B) (hlen : call.inputs.length = c)
    (hinv : DecodeInv f B c st) :
    ∃ status drained st',
      st.process effect call = .ok (status, drained, st') ∧
      DecodeInv f B c st' := by
  obtain ⟨hfs, hmb, hnc, fill, ⟨hcnt, huni⟩, hfill, heq, hrest⟩ := hinv
  unfold DecodeProcessor.process
  dsimp only
  by_cases hsil : call.silent = true
  · rw [if_pos hsil]
    exact ⟨_, _, _, rfl, validateCapacity_inv f B c st _
      ⟨hfs, hmb, hnc, fill, ⟨hcnt, huni⟩, hfill, heq, hrest⟩⟩
  rw [if_neg hsil]
  obtain ⟨hsd, hmbp, hfsp, hncp⟩ :=
    accumFrames_preserves effect call.inputs call.frames st
  obtain ⟨hslen, hsuni, hsq0, hsq1⟩ := accumFrames_spec effect call.inputs
    call.frames st fill (by omega) (by omega)
    (by rw [hlen, hcnt, hnc]) huni (by omega)
  have hdm := Nat.div_add_mod (fill + call.frames) st.frameSize
  have hrlt : (fill + call.frames) % st.frameSize < st.frameSize :=
    Nat.mod_lt _ (by omega)
  obtain ⟨P, hP⟩ :
      ∃ P, st.frameSize * ((fill + call.frames) / st.frameSize) = P :=
    ⟨_, rfl⟩
  obtain ⟨r, hr⟩ : ∃ r, (fill + call.frames) % st.frameSize = r := ⟨_, rfl⟩
  rw [hP] at hsq0 hsq1 hdm
  rw [hr] at hsuni hdm hrlt
  have hPdvd : f ∣ P :=
    ⟨(fill + call.frames) / st.frameSize, by rw [← hP, hfs]⟩
  rw [hfs] at hrlt
  set st1 := st.accumFrames effect call.inputs call.frames with hst1
  have hq1eq : st1.outputBuffer1.length = st1.outputBuffer0.length := by
    rw [hsq0, hsq1, heq]
  by_cases hcond : st1.startedDraining = false ∧
      2 * st1.outputBuffer0.length < 3 * st1.maxBlockFrames
  · rw [if_pos hcond]
    have hsdf : st.startedDraining = false := by rw [← hsd]; exact hcond.1
    rw [hsdf] at hrest
    rw [if_neg (by simp : ¬(false = true))] at hrest
    refine ⟨_, _, _, rfl, validateCapacity_inv f B c st1 _ ?_⟩
    refine ⟨hfsp.trans hfs, hmbp.trans hmb, hncp.trans hnc, r,
      ⟨?_, ?_⟩, hrlt, hq1eq, ?_⟩
    · rw [hslen, hcnt, hncp]
    · exact hsuni
    · rw [hcond.1]
      rw [if_neg (by simp : ¬(false = true))]
      constructor
      · have hPmod : P % f = 0 := by
          obtain ⟨k0, hk0⟩ := hPdvd
          rw [hk0]
          exact Nat.mul_mod_right f k0
        rw [hsq0, Nat.add_mod, hrest.1, hPmod]
        simp
      · rw [← hmbp.trans hmb]
        exact hcond.2
  · rw [if_neg hcond]
    have hkey : call.frames ≤ st1.outputBuffer0.length ∧
        f - 1 ≤ (st1.outputBuffer0.length - call.frames) + r := by
      rcases hsdv : st.startedDraining with _ | _
      · have hsd1 : st1.startedDraining = false := by rw [hsd, hsdv]
        have hnotlt : 3 * B ≤ 2 * st1.outputBuffer0.length := by
          rcases Nat.lt_or_ge (2 * st1.outputBuffer0.length)
              (3 * st1.maxBlockFrames) with hlt | hge
          · exact absurd ⟨hsd1, hlt⟩ hcond
          · rw [hmbp.trans hmb] at hge; omega
        rw [hsdv] at hrest
        rw [if_neg (by simp : ¬(false = true))] at hrest
        obtain ⟨q0, hq0⟩ := Nat.dvd_of_mod_eq_zero hrest.1
        obtain ⟨k0, hk0⟩ := hPdvd
        have hq1form : st1.outputBuffer0.length = f * (q0 + k0) := by
          rw [hsq0, hq0, hk0, Nat.mul_add]
        have hdivle : ((3 * B + 1) / 2 + (f - 1)) / f ≤ q0 + k0 := by
          rw [Nat.div_le_iff_le_mul_add_pred (by omega : 0 < f)]
          have h1 : (3 * B + 1) / 2 ≤ f * (q0 + k0) := by
            rw [← hq1form]; omega
          omega
        have hge : B + (f - 1) ≤ st1.outputBuffer0.length := by
          rw [hq1form]
          calc B + (f - 1)
              ≤ f * (((3 * B + 1) / 2 + (f - 1)) / f) := hsafe
            _ ≤ f * (q0 + k0) := Nat.mul_le_mul_left f hdivle
        omega
      · rw [hsdv] at hrest
        rw [if_pos rfl] at hrest
        have hsum : st1.outputBuffer0.length + r =
            st.outputBuffer0.length + fill + call.frames := by
          rw [hsq0]; omega
        omega
    have hdrain :
        DecodeProcessor.drainOutputs call.frames
            { st1 with startedDraining := true } =
          .ok ((st1.outputBuffer0.take call.frames,
                st1.outputBuffer1.take call.frames),
            { st1 with startedDraining := true,
                       outputBuffer0 := st1.outputBuffer0.drop call.frames,
                       outputBuffer1 := st1.outputBuffer1.drop call.frames })
        := by
      have hb1 : call.frames ≤ st1.outputBuffer1.length := by omega
      unfold DecodeProcessor.drainOutputs
      rw [if_pos ⟨hkey.1, hb1⟩]
    rw [hdrain]
    refine ⟨_, _, _, rfl, validateCapacity_inv f B c _ _ ?_⟩
    refine ⟨hfsp.trans hfs, hmbp.trans hmb, hncp.trans hnc, r,
      ⟨?_, ?_⟩, hrlt, ?_, ?_⟩
    · show st1.inputBuffer.length = st1.numChannels
      rw [hslen, hcnt, hncp]
    · exact hsuni
    · show (st1.outputBuffer1.drop call.frames).length =
        (st1.outputBuffer0.drop call.frames).length
      rw [List.length_drop, List.length_drop, hq1eq]
    · show f - 1 ≤ (st1.outputBuffer0.drop call.frames).length + r
      rw [List.length_drop]
      exact hkey.2

/-- The invariant holds right after construction (`max_block_frames` is a
`NonZeroU32` in the source, hence `1 ≤ B`). -/
theorem decodeInv_construct (f B c : ℕ) (hf : 1 ≤ f) (hB : 1 ≤ B) :
    DecodeInv f B c (DecodeProcessor.construct f B c) := by
  refine ⟨rfl, rfl, rfl, 0, ⟨?_, ?_⟩, by omega, rfl, ?_⟩
  · show (List.replicate c ([] : List ℤ)).length = c
    simp
  · intro b hb
    rw [List.eq_of_mem_replicate
      (show b ∈ List.replicate c ([] : List ℤ) from hb)]
    rfl
  · show ([] : List ℤ).length % f = 0 ∧ 2 * ([] : List ℤ).length < 3 * B
    constructor
    · simp
    · simp
      omega

/-- From any invariant state, a run of bounded-block calls never panics. -/
theorem run_ok_of_inv (f B c : ℕ) (effect : List ℤ → List ℤ)
    (hf : 1 ≤ f) (hc : 1 ≤ c)
    (hsafe : B + (f - 1) ≤ f * (((3 * B + 1) / 2 + (f - 1)) / f)) :
    ∀ (calls : List DecodeCall) (st : DecodeProcessor),
      DecodeInv f B c st →
      (∀ call ∈ calls, call.frames ≤ B ∧ call.inputs.length = c) →
      ∃ out, DecodeProcessor.run effect st calls = .ok out
  | [], st, _, _ => ⟨_, rfl⟩
  | call :: calls, st, hinv, hcalls => by
      obtain ⟨status, drained, st', hproc, hinv'⟩ :=
        process_ok_inv f B c effect st call hf hc hsafe
          (hcalls call (List.mem_cons_self _ _)).1
          (hcalls call (List.mem_cons_self _ _)).2 hinv
      obtain ⟨out, hrun⟩ := run_ok_of_inv f B c effect hf hc hsafe calls st'
        hinv' (fun d hd => hcalls d (List.mem_cons_of_mem _ hd))
      obtain ⟨rest, stF⟩ := out
      refine ⟨((status, drained) :: rest, stF), ?_⟩
      unfold DecodeProcessor.run
      rw [hproc]
      dsimp only
      rw [hrun]

/-- Amended claim C10: for every sequence of non-exceeding block lengths the
unchecked drain stays in bounds and `process` never panics, provided frame
size `f` and `max_block_frames` `B` additionally satisfy
`B + (f-1) ≤ f * ⌈⌈1.5B⌉ / f⌉` (the first multiple of `f` past the
`1.5 × B` drain threshold leaves at least `B + f - 1` queued samples); the
counterexample shows the unconditional claim fails without this side
condition. -/
theorem c10_drain_in_bounds (f B c : ℕ) (effect : List ℤ → List ℤ)
    (calls : List DecodeCall)
    (hf : 1 ≤ f) (hB : 1 ≤ B) (hc : 1 ≤ c)
    (hsafe : B + (f - 1) ≤ f * (((3 * B + 1) / 2 + (f - 1)) / f))
    (hcalls : ∀ call ∈ calls, call.frames ≤ B ∧ call.inputs.length = c) :
    ∃ out, DecodeProcessor.run effect
      (DecodeProcessor.construct f B c) calls = .ok out :=
  run_ok_of_inv f B c effect hf hc hsafe calls _
    (decodeInv_construct f B c hf hB) hcalls

/-- Witness for the amended C10 at a concrete input: frame size 2,
`max_block_frames` 4 (the side condition holds: `4 + 1 ≤ 2 * ⌈7/2⌉ = 6`),
blocks of length 2 and 4. -/
theorem c10_witness :
    (1 ≤ 2 ∧ 1 ≤ 4 ∧ 1 ≤ 1 ∧
      4 + (2 - 1) ≤ 2 * (((3 * 4 + 1) / 2 + (2 - 1)) / 2) ∧
      (∀ call ∈ ([⟨2, false, [[0, 0]]⟩, ⟨4, false, [[0, 0, 0, 0]]⟩,
          ⟨1, false, [[0]]⟩] : List DecodeCall),
        call.frames ≤ 4 ∧ call.inputs.length = 1)) ∧
    ∃ out, DecodeProcessor.run doubleEffect
      (DecodeProcessor.construct 2 4 1)
      [⟨2, false, [[0, 0]]⟩, ⟨4, false, [[0, 0, 0, 0]]⟩,
       ⟨1, false, [[0]]⟩] = .ok out :=
  ⟨⟨by decide, by decide, by decide, by decide, by decide⟩,
    c10_drain_in_bounds 2 4 1 doubleEffect _
      (by decide) (by decide) (by decide) (by decide) (by decide)⟩

/-- Amended claim C7: a call whose input channels are all silent returns a
cleared status and drains nothing (this exception is what the counterexample
forces); otherwise, while draining has not started and the queued output of
channel 0 after accumulation is below `1.5 × max_block_frames`, the call
returns a cleared status and drains nothing; and once draining has started
(or this call crosses the threshold), a call whose requested frames do not
exceed the queued output drains exactly the requested number of samples per
channel and returns a modified status. -/
theorem c7_drain_behavior (effect : List ℤ → List ℤ)
    (st : DecodeProcessor) (call : DecodeCall) (st1 : DecodeProcessor)
    (hst1 : st1 = st.accumFrames effect call.inputs call.frames) :
    (call.silent = true →
      st.process effect call =
        .ok (.clearAllOutputs, ([], []),
          st.validateCapacity st.totalCapacity)) ∧
    (call.silent = false →
      st.startedDraining = false →
      2 * st1.outputBuffer0.length < 3 * st1.maxBlockFrames →
      st.process effect call =
        .ok (.clearAllOutputs, ([], []),
          st1.validateCapacity st.totalCapacity)) ∧
    (call.silent = false →
      (st.startedDraining = true ∨
        3 * st1.maxBlockFrames ≤ 2 * st1.outputBuffer0.length) →
      call.frames ≤ st1.outputBuffer0.length →
      call.frames ≤ st1.outputBuffer1.length →
      ∃ st',
        st.process effect call =
          .ok (.outputsModified,
            (st1.outputBuffer0.take call.frames,
             st1.outputBuffer1.take call.frames), st') ∧
        (st1.outputBuffer0.take call.frames).length = call.frames ∧
        (st1.outputBuffer1.take call.frames).length = call.frames ∧
        st'.outputBuffer0 = st1.outputBuffer0.drop call.frames ∧
        st'.outputBuffer1 = st1.outputBuffer1.drop call.frames ∧
        st'.startedDraining = true) := by
  subst hst1
  obtain ⟨hsd, hmbp, hfsp, hncp⟩ :=
    accumFrames_preserves effect call.inputs call.frames st
  refine ⟨?_, ?_, ?_⟩
  · intro hsil
    unfold DecodeProcessor.process
    dsimp only
    rw [if_pos hsil]
  · intro hsil hsdf hlt
    unfold DecodeProcessor.process
    dsimp only
    rw [if_neg (by simp [hsil]), if_pos ⟨by rw [hsd]; exact hsdf, hlt⟩]
  · intro hsil hstart hb0 hb1
    unfold DecodeProcessor.process
    dsimp only
    rw [if_neg (by simp [hsil]), if_neg ?_]
    swap
    · rintro ⟨h1, h2⟩
      rcases hstart with h | h
      · rw [hsd, h] at h1
        exact Bool.noConfusion h1
      · omega
    have hdrain :
        DecodeProcessor.drainOutputs call.frames
            { st.accumFrames effect call.inputs call.frames with
                startedDraining := true } =
          .ok (((st.accumFrames effect call.inputs
                    call.frames).outputBuffer0.take call.frames,
                (st.accumFrames effect call.inputs
                    call.frames).outputBuffer1.take call.frames),
            { st.accumFrames effect call.inputs call.frames with
                startedDraining := true,
                outputBuffer0 := (st.accumFrames effect call.inputs
                  call.frames).outputBuffer0.drop call.frames,
                outputBuffer1 := (st.accumFrames effect call.inputs
                  call.frames).outputBuffer1.drop call.frames }) := by
      unfold DecodeProcessor.drainOutputs
      rw [if_pos ⟨hb0, hb1⟩]
    rw [hdrain]
    refine ⟨_, rfl, ?_, ?_, ?_, ?_, ?_⟩
    · rw [List.length_take]; omega
    · rw [List.length_take]; omega
    · exact (validateCapacity_fields _ _).1
    · exact (validateCapacity_fields _ _).2.1
    · rw [(validateCapacity_fields _ _).2.2.1]

/-- Witness for the amended C7 at a concrete input: a silent call returns a
cleared status without draining. -/
theorem c7_witness :
    ((⟨2, true, [[0, 0]]⟩ : DecodeCall).silent = true) ∧
    (DecodeProcessor.construct 2 2 1).process doubleEffect
        ⟨2, true, [[0, 0]]⟩ =
      .ok (.clearAllOutputs, ([], []),
        (DecodeProcessor.construct 2 2 1).validateCapacity
          (DecodeProcessor.construct 2 2 1).totalCapacity) :=
  ⟨rfl,
    (c7_drain_behavior doubleEffect (DecodeProcessor.construct 2 2 1)
      ⟨2, true, [[0, 0]]⟩ _ rfl).1 rfl⟩

/-! ### Helper lemmas for the frame-reassembly proof -/

theorem channelCat_nil (ch : ℕ) : channelCat ch [] = [] := rfl

theorem channelCat_append (ch : ℕ) (xs ys : List (List (List ℤ))) :
    channelCat ch (xs ++ ys) = channelCat ch xs ++ channelCat ch ys := by
  unfold channelCat
  rw [List.map_append, List.flatten_append]

theorem channelCat_singleton (ch : ℕ) (x : List (List ℤ)) :
    channelCat ch [x] = x.getD ch [] := by
  unfold channelCat
  simp

theorem channelCat_oob (ch : ℕ) (xs : List (List (List ℤ)))
    (h : ∀ chunk ∈ xs, chunk.length ≤ ch) : channelCat ch xs = [] := by
  unfold channelCat
  rw [List.flatten_eq_nil_iff]
  intro l hl
  obtain ⟨chunk, hchunk, hl⟩ := List.mem_map.mp hl
  rw [← hl]
  exact List.getD_eq_default _ _ (h chunk hchunk)

theorem getD_map_range (g : ℕ → List ℤ) (n i : ℕ) (h : i < n) :
    ((List.range n).map g).getD i [] = g i := by
  rw [List.getD_eq_getElem _ _ (by simpa using h)]
  simp

theorem chunkFeedRef_nil (F : σ → List (List ℤ) → σ × List (List ℤ))
    (cap outCh : ℕ) (s : σ) : chunkFeedRef F cap outCh s [] = (s, []) := rfl

theorem chunkFeedRef_cons (F : σ → List (List ℤ) → σ × List (List ℤ))
    (cap outCh : ℕ) (s : σ) (chunk : List (List ℤ))
    (rest : List (List (List ℤ))) :
    chunkFeedRef F cap outCh s (chunk :: rest) =
      ((chunkFeedRef F cap outCh (F s chunk).1 rest).1,
        ((List.range outCh).map fun ch =>
          List.takeD cap ((F s chunk).2.getD ch []) 0) ::
        (chunkFeedRef F cap outCh (F s chunk).1 rest).2) := rfl

theorem chunkFeedRef_append (F : σ → List (List ℤ) → σ × List (List ℤ))
    (cap outCh : ℕ) (xs ys : List (List (List ℤ))) :
    ∀ s : σ, chunkFeedRef F cap outCh s (xs ++ ys) =
      ((chunkFeedRef F cap outCh (chunkFeedRef F cap outCh s xs).1 ys).1,
       (chunkFeedRef F cap outCh s xs).2 ++
         (chunkFeedRef F cap outCh (chunkFeedRef F cap outCh s xs).1 ys).2)
    := by
  induction xs with
  | nil => intro s; rw [chunkFeedRef_nil]; simp
  | cons chunk rest ih =>
      intro s
      rw [List.cons_append, chunkFeedRef_cons, chunkFeedRef_cons, ih]
      simp

theorem chunkFeedRef_shape (F : σ → List (List ℤ) → σ × List (List ℤ))
    (cap outCh : ℕ) (xs : List (List (List ℤ))) :
    ∀ s : σ, ∀ chunk ∈ (chunkFeedRef F cap outCh s xs).2,
      chunk.length = outCh := by
  induction xs with
  | nil => intro s chunk h; rw [chunkFeedRef_nil] at h; exact absurd h (by simp)
  | cons c rest ih =>
      intro s chunk h
      rw [chunkFeedRef_cons] at h
      rcases List.mem_cons.mp h with h | h
      · rw [h]; simp
      · exact ih _ chunk h

theorem appendProduced_nil : ∀ (qs : List (List ℤ)) (start : ℕ),
    appendProduced [] qs start = qs
  | [], _ => rfl
  | q :: qs, start => by
      unfold appendProduced
      rw [channelCat_nil, List.append_nil, appendProduced_nil qs (start + 1)]

theorem appendProduced_length (p : List (List (List ℤ))) :
    ∀ (qs : List (List ℤ)) (start : ℕ),
      (appendProduced p qs start).length = qs.length
  | [], _ => rfl
  | q :: qs, start => by
      unfold appendProduced
      rw [List.length_cons, List.length_cons,
        appendProduced_length p qs (start + 1)]

theorem appendProduced_getD (p : List (List (List ℤ))) :
    ∀ (qs : List (List ℤ)) (start ch : ℕ),
      (∀ chunk ∈ p, chunk.length = start + qs.length) →
      (appendProduced p qs start).getD ch [] =
        qs.getD ch [] ++ channelCat (start + ch) p
  | [], start, ch, hp => by
      unfold appendProduced
      rw [channelCat_oob (start + ch) p
        (fun chunk hc => by
          rw [hp chunk hc]; simp only [List.length_nil]; omega)]
      rfl
  | q :: qs, start, 0, hp => by
      unfold appendProduced
      rfl
  | q :: qs, start, ch + 1, hp => by
      unfold appendProduced
      show (appendProduced p qs (start + 1)).getD ch [] = _
      rw [appendProduced_getD p qs (start + 1) ch
        (fun chunk hc => by rw [hp chunk hc, List.length_cons]; omega)]
      show _ = (q :: qs).getD (ch + 1) [] ++ channelCat (start + (ch + 1)) p
      rw [show start + 1 + ch = start + (ch + 1) by omega]
      rfl

theorem appendProduced_snoc (p : List (List (List ℤ)))
    (written : List (List ℤ)) (cap outCh : ℕ) :
    ∀ (qs : List (List ℤ)) (start : ℕ), start + qs.length ≤ outCh →
      appendProduced
          (p ++ [(List.range outCh).map fun ch =>
            List.takeD cap (written.getD ch []) 0]) qs start
        = extendOutputs cap written (appendProduced p qs start) start
  | [], _, _ => rfl
  | q :: qs, start, h => by
      unfold appendProduced extendOutputs
      rw [channelCat_append, channelCat_singleton,
        getD_map_range _ outCh start
          (by simp only [List.length_cons] at h; omega),
        ← List.append_assoc,
        appendProduced_snoc p written cap outCh qs (start + 1)
          (by simp only [List.length_cons] at h; omega)]

theorem drain_channel :
    ∀ (outLens : List ℕ) (qs : List (List ℤ)) (ch : ℕ),
      qs.getD ch [] =
        (List.zipWith (fun len q => q.take (min len q.length))
          outLens qs).getD ch [] ++
        ((List.zipWith (fun len q => q.drop (min len q.length)) outLens qs)
          ++ qs.drop outLens.length).getD ch []
  | [], qs, ch => by simp
  | len :: outLens, [], ch => by simp
  | len :: outLens, q :: qs, 0 => by
      show q = q.take (min len q.length) ++ q.drop (min len q.length)
      rw [List.take_append_drop]
  | len :: outLens, q :: qs, ch + 1 => by
      show qs.getD ch [] = _
      rw [drain_channel outLens qs ch]
      rfl

theorem zipWith_append_take_zero :
    ∀ (data ins : List (List ℤ)), ins.length = data.length →
      List.zipWith (fun buf inp => buf ++ inp.take 0) data ins = data
  | [], _, _ => by simp
  | d :: data, [], h => by simp at h
  | d :: data, i :: ins, h => by
      show (d ++ List.take 0 i) :: _ = d :: data
      rw [List.take_zero, List.append_nil,
        zipWith_append_take_zero data ins (by simpa using h)]

theorem combined_succ (n : ℕ) :
    ∀ (fill ins : List (List ℤ)), ins.length = fill.length →
      (∀ l ∈ ins, n < l.length) →
      List.zipWith (fun buf inp => buf ++ inp.take (n + 1)) fill ins
        = List.zipWith (fun buf inp => buf ++ [inp.getD n 0])
            (List.zipWith (fun buf inp => buf ++ inp.take n) fill ins) ins
  | [], _, _, _ => by simp
  | f :: fill, [], h, _ => by simp at h
  | f :: fill, i :: ins, h, hlen => by
      simp only [List.zipWith]
      rw [combined_succ n fill ins (by simpa using h)
        (fun l hl => hlen l (List.mem_cons_of_mem _ hl))]
      have hi : i.take (n + 1) = i.take n ++ [i.getD n 0] := by
        have hn : n < i.length := hlen i (List.mem_cons_self _ _)
        rw [List.getD_eq_getElem _ _ hn]
        rw [← List.take_concat_get' i n hn]
      rw [hi, List.append_assoc]

theorem zipWith_push_drop (m n : ℕ) :
    ∀ (comb ins : List (List ℤ)), ins.length = comb.length →
      (∀ cs ∈ comb, m ≤ cs.length) →
      List.zipWith (fun buf inp => buf ++ [inp.getD n 0])
          (comb.map (List.drop m)) ins
        = (List.zipWith (fun buf inp => buf ++ [inp.getD n 0]) comb ins).map
            (List.drop m)
  | [], _, _, _ => by simp
  | c :: comb, [], h, _ => by simp at h
  | c :: comb, i :: ins, h, hlen => by
      simp only [List.map_cons, List.zipWith]
      rw [zipWith_push_drop m n comb ins (by simpa using h)
        (fun cs hc => hlen cs (List.mem_cons_of_mem _ hc))]
      rw [List.drop_append_of_le_length (hlen c (List.mem_cons_self _ _))]

theorem zipWith_append_take_length (n : ℕ) :
    ∀ (fill ins : List (List ℤ)) (l : ℕ), ins.length = fill.length →
      (∀ b ∈ fill, b.length = l) → (∀ i ∈ ins, n ≤ i.length) →
      ∀ cs ∈ List.zipWith (fun buf inp => buf ++ inp.take n) fill ins,
        cs.length = l + n
  | [], _, _, _, _, _ => by simp
  | f :: fill, [], l, h, _, _ => by simp at h
  | f :: fill, i :: ins, l, h, hfill, hins => by
      intro cs hcs
      rcases List.mem_cons.mp hcs with hc | hc
      · subst hc
        rw [List.length_append, List.length_take,
          hfill f (List.mem_cons_self _ _),
          Nat.min_eq_left (hins i (List.mem_cons_self _ _))]
      · exact zipWith_append_take_length n fill ins l (by simpa using h)
          (fun b hb => hfill b (List.mem_cons_of_mem _ hb))
          (fun b hb => hins b (List.mem_cons_of_mem _ hb)) cs hc

theorem sliceChunk_push_stable (fsz n j : ℕ) :
    ∀ (streams ins : List (List ℤ)), ins.length = streams.length →
      (∀ cs ∈ streams, j * fsz + fsz ≤ cs.length) →
      sliceChunk fsz
          (List.zipWith (fun buf inp => buf ++ [inp.getD n 0]) streams ins) j
        = sliceChunk fsz streams j
  | [], _, _, _ => by simp [sliceChunk]
  | c :: streams, [], h, _ => by simp at h
  | c :: streams, i :: ins, h, hlen => by
      unfold sliceChunk
      show ((c ++ [i.getD n 0]).drop (j * fsz)).take fsz :: _ = _
      have hc := hlen c (List.mem_cons_self _ _)
      rw [List.drop_append_of_le_length (by omega),
        List.take_append_of_le_length (by rw [List.length_drop]; omega)]
      have := sliceChunk_push_stable fsz n j streams ins (by simpa using h)
        (fun cs hc => hlen cs (List.mem_cons_of_mem _ hc))
      unfold sliceChunk at this
      rw [this]
      rfl

theorem map_drop_eq_sliceChunk (fsz j : ℕ) (streams : List (List ℤ))
    (hlen : ∀ cs ∈ streams, cs.length = j * fsz + fsz) :
    streams.map (List.drop (j * fsz)) = sliceChunk fsz streams j := by
  unfold sliceChunk
  apply List.map_congr_left
  intro cs hcs
  rw [List.take_of_length_le (by rw [List.length_drop, hlen cs hcs]; omega)]

theorem map_const_nil_eq_map_drop (m : ℕ) :
    ∀ (xs ys : List (List ℤ)), xs.length = ys.length →
      (∀ y ∈ ys, y.length ≤ m) →
      xs.map (fun _ => ([] : List ℤ)) = ys.map (List.drop m)
  | [], [], _, _ => rfl
  | [], y :: ys, h, _ => by simp at h
  | x :: xs, [], h, _ => by simp at h
  | x :: xs, y :: ys, h, hlen => by
      simp only [List.map_cons]
      rw [List.drop_eq_nil_of_le (hlen y (List.mem_cons_self _ _)),
        map_const_nil_eq_map_drop m xs ys (by simpa using h)
          (fun b hb => hlen b (List.mem_cons_of_mem _ hb))]

/-- One more accumulated frame advances the closed form by one. -/
theorem procFramesSpec_succ (F : σ → List (List ℤ) → σ × List (List ℤ))
    (ins : List (List ℤ)) (n : ℕ) (fb : FixedProcessBlock) (s : σ)
    (log : List (List (List ℤ)))
    (hcap : 1 ≤ fb.inputs.channelCapacity)
    (hcount : fb.inputs.data.length = fb.inputs.channelCount)
    (hins : ins.length = fb.inputs.channelCount)
    (hfill : ∀ b ∈ fb.inputs.data, b.length = fb.inputs.length)
    (hl : fb.inputs.length < fb.inputs.channelCapacity)
    (hlen : ∀ i ∈ ins, n + 1 ≤ i.length) :
    FixedProcessBlock.stepFrame F ins n (procFramesSpec F ins n fb s log)
      = procFramesSpec F ins (n + 1) fb s log := by
  have hlen' : ∀ i ∈ ins, n ≤ i.length := fun i hi => by
    have := hlen i hi; omega
  have hinsdata : ins.length = fb.inputs.data.length := hins.trans hcount.symm
  have hcc : (List.zipWith (fun buf inp => buf ++ inp.take n)
      fb.inputs.data ins).length = fb.inputs.channelCount := by
    rw [List.length_zipWith, hcount, hins, Nat.min_self]
  have hclen := zipWith_append_take_length n fb.inputs.data ins
    fb.inputs.length hinsdata hfill hlen'
  have hclen1 := zipWith_append_take_length (n + 1) fb.inputs.data ins
    fb.inputs.length hinsdata hfill hlen
  have hkf : ((fb.inputs.length + n) / fb.inputs.channelCapacity) *
      fb.inputs.channelCapacity ≤ fb.inputs.length + n :=
    Nat.div_mul_le_self _ _
  have hcsucc := combined_succ n fb.inputs.data ins hinsdata
    (fun i hi => by have := hlen i hi; omega)
  have hpushdrop := zipWith_push_drop
    (((fb.inputs.length + n) / fb.inputs.channelCapacity) *
      fb.inputs.channelCapacity) n
    (List.zipWith (fun buf inp => buf ++ inp.take n) fb.inputs.data ins) ins
    (by rw [hcc, hins]) (fun cs hc => by rw [hclen cs hc]; exact hkf)
  have hdata : List.zipWith (fun buf inp => buf ++ [inp.getD n 0])
      ((List.zipWith (fun buf inp => buf ++ inp.take n)
        fb.inputs.data ins).map
        (List.drop (((fb.inputs.length + n) / fb.inputs.channelCapacity) *
          fb.inputs.channelCapacity))) ins
    = (List.zipWith (fun buf inp => buf ++ inp.take (n + 1))
        fb.inputs.data ins).map
        (List.drop (((fb.inputs.length + n) / fb.inputs.channelCapacity) *
          fb.inputs.channelCapacity)) := by
    rw [hpushdrop, ← hcsucc]
  have hstable : ∀ j ∈ List.range
      ((fb.inputs.length + n) / fb.inputs.channelCapacity),
      sliceChunk fb.inputs.channelCapacity
        (List.zipWith (fun buf inp => buf ++ inp.take (n + 1))
          fb.inputs.data ins) j
      = sliceChunk fb.inputs.channelCapacity
        (List.zipWith (fun buf inp => buf ++ inp.take n)
          fb.inputs.data ins) j := by
    intro j hj
    have hj := List.mem_range.mp hj
    rw [hcsucc]
    apply sliceChunk_push_stable _ _ _ _ _ (by rw [hcc, hins])
    intro cs hc
    rw [hclen cs hc]
    have hmul : (j + 1) * fb.inputs.channelCapacity ≤
        ((fb.inputs.length + n) / fb.inputs.channelCapacity) *
          fb.inputs.channelCapacity :=
      mul_le_mul_right' (Nat.succ_le_of_lt hj) _
    have hsm : (j + 1) * fb.inputs.channelCapacity
        = j * fb.inputs.channelCapacity + fb.inputs.channelCapacity :=
      Nat.succ_mul _ _
    omega
  unfold procFramesSpec FixedProcessBlock.stepFrame FlatChannels.pushFrame
  dsimp only
  rw [hdata]
  rw [show fb.inputs.length + (n + 1) = fb.inputs.length + n + 1 by omega]
  split
  · -- the accumulator fills: one more chunk is consumed
    next hfull =>
      have hfull' : (fb.inputs.length + n) % fb.inputs.channelCapacity + 1
          = fb.inputs.channelCapacity := hfull
      obtain ⟨hmod, hdiv⟩ :=
        (succ_div_mod (fb.inputs.length + n) fb.inputs.channelCapacity
          hcap).1 hfull'
      rw [hmod, hdiv]
      have hdmc := Nat.div_add_mod (fb.inputs.length + n)
        fb.inputs.channelCapacity
      have hcomm : fb.inputs.channelCapacity *
          ((fb.inputs.length + n) / fb.inputs.channelCapacity)
          = ((fb.inputs.length + n) / fb.inputs.channelCapacity) *
            fb.inputs.channelCapacity := Nat.mul_comm _ _
      have hchunk : (List.zipWith (fun buf inp => buf ++ inp.take (n + 1))
            fb.inputs.data ins).map
          (List.drop
            (((fb.inputs.length + n) / fb.inputs.channelCapacity) *
              fb.inputs.channelCapacity))
          = sliceChunk fb.inputs.channelCapacity
            (List.zipWith (fun buf inp => buf ++ inp.take (n + 1))
              fb.inputs.data ins)
            ((fb.inputs.length + n) / fb.inputs.channelCapacity) := by
        apply map_drop_eq_sliceChunk
        intro cs hc
        rw [hclen1 cs hc]
        omega
      rw [List.range_succ, List.map_append, List.map_cons, List.map_nil,
        List.map_congr_left hstable,
        chunkFeedRef_append, chunkFeedRef_cons, chunkFeedRef_nil]
      dsimp only
      rw [← hchunk]
      refine congrArg₂ Prod.mk (congrArg₂ FixedProcessBlock.mk ?_ ?_)
        (congrArg₂ Prod.mk rfl ?_)
      · -- the cleared accumulator
        show FlatChannels.clear _ = _
        unfold FlatChannels.clear
        dsimp only
        refine congrArg₂ (FlatChannels.mk fb.inputs.channelCount
          fb.inputs.channelCapacity) ?_ rfl
        apply map_const_nil_eq_map_drop
        · rw [List.length_map]
        · intro y hy
          rw [hclen1 y hy, Nat.succ_mul]
          omega
      · -- the output queues
        exact (appendProduced_snoc _ _ _ fb.outputs.length fb.outputs 0
          (by omega)).symm
      · -- the invocation log
        rw [List.append_assoc]
  · -- the accumulator is not yet full
    next hfull =>
      have hfull' : ¬((fb.inputs.length + n) % fb.inputs.channelCapacity + 1
          = fb.inputs.channelCapacity) := hfull
      have hmlt : (fb.inputs.length + n) % fb.inputs.channelCapacity
          < fb.inputs.channelCapacity := Nat.mod_lt _ (by omega)
      obtain ⟨hmod, hdiv⟩ :=
        (succ_div_mod (fb.inputs.length + n) fb.inputs.channelCapacity
          hcap).2 (by omega)
      rw [hmod, hdiv, List.map_congr_left hstable]

/-- The accumulation loop of `FixedProcessBlock::process` equals its closed
form. -/
theorem procFrames_spec (F : σ → List (List ℤ) → σ × List (List ℤ))
    (ins : List (List ℤ)) (fb : FixedProcessBlock) (s : σ)
    (log : List (List (List ℤ)))
    (hcap : 1 ≤ fb.inputs.channelCapacity)
    (hcount : fb.inputs.data.length = fb.inputs.channelCount)
    (hins : ins.length = fb.inputs.channelCount)
    (hfill : ∀ b ∈ fb.inputs.data, b.length = fb.inputs.length)
    (hl : fb.inputs.length < fb.inputs.channelCapacity) :
    ∀ n : ℕ, (∀ i ∈ ins, n ≤ i.length) →
      FixedProcessBlock.procFrames F ins n (fb, s, log)
        = procFramesSpec F ins n fb s log := by
  intro n
  induction n with
  | zero =>
      intro _
      show (fb, s, log) = _
      unfold procFramesSpec
      dsimp only
      rw [Nat.add_zero, Nat.div_eq_of_lt hl, Nat.mod_eq_of_lt hl,
        zipWith_append_take_zero fb.inputs.data ins
          (hins.trans hcount.symm),
        List.range_zero, List.map_nil, chunkFeedRef_nil]
      dsimp only
      rw [appendProduced_nil, List.append_nil, Nat.zero_mul,
        show (List.drop 0 : List ℤ → List ℤ) = id from
          funext fun l => List.drop_zero l,
        List.map_id]
  | succ n ih =>
      intro hlen
      have hlen' : ∀ i ∈ ins, n ≤ i.length := fun i hi => by
        have := hlen i hi; omega
      show FixedProcessBlock.stepFrame F ins n
        (FixedProcessBlock.procFrames F ins n (fb, s, log)) = _
      rw [ih hlen']
      exact procFramesSpec_succ F ins n fb s log hcap hcount hins hfill hl
        hlen

theorem drainedCat_cons (ch : ℕ) (st : ProcessStatus) (d : List (List ℤ))
    (rs : List (ProcessStatus × List (List ℤ))) :
    drainedCat ch ((st, d) :: rs) = d.getD ch [] ++ drainedCat ch rs := rfl

theorem appendProduced_queues_nil (p : List (List (List ℤ))) (ch : ℕ) :
    appendProduced p [] ch = [] := rfl

theorem appendProduced_cons (p : List (List (List ℤ))) (q : List ℤ)
    (qs : List (List ℤ)) (ch : ℕ) :
    appendProduced p (q :: qs) ch
      = (q ++ channelCat ch p) :: appendProduced p qs (ch + 1) := rfl

/-- One `FixedProcessBlock::process` call against the closed form of the
accumulation loop: the accumulator and callback state advance to the closed
form; whatever the drain removes is removed from the front of the queues
(`S` is the closed-form loop result, `P` the process result). -/
theorem process_spec (F : σ → List (List ℤ) → σ × List (List ℤ))
    (fb : FixedProcessBlock) (s : σ) (frames : ℕ)
    (callInputs : List (List ℤ)) (outLens : List ℕ)
    (P : FixedProcessBlock × σ × List (List (List ℤ)) ×
      ProcessStatus × List (List ℤ))
    (hP : P = fb.process F s frames callInputs outLens)
    (S : FixedProcessBlock × σ × List (List (List ℤ)))
    (hS : S = procFramesSpec F callInputs frames fb s [])
    (hcap : 1 ≤ fb.inputs.channelCapacity)
    (hcount : fb.inputs.data.length = fb.inputs.channelCount)
    (hins : callInputs.length = fb.inputs.channelCount)
    (hfill : ∀ b ∈ fb.inputs.data, b.length = fb.inputs.length)
    (hl : fb.inputs.length < fb.inputs.channelCapacity)
    (hinslen : ∀ i ∈ callInputs, frames ≤ i.length) :
    P.1.inputs = S.1.inputs ∧
    P.2.1 = S.2.1 ∧
    P.2.2.1 = S.2.2 ∧
    P.1.outputs.length = S.1.outputs.length ∧
    (∀ ch, S.1.outputs.getD ch []
      = P.2.2.2.2.getD ch [] ++ P.1.outputs.getD ch []) := by
  subst hP hS
  unfold FixedProcessBlock.process
  rw [procFrames_spec F callInputs fb s [] hcap hcount hins hfill hl frames
    hinslen]
  dsimp only
  rcases houts : fb.outputs with _ | ⟨q, qs⟩
  · -- no output channels: `outputs.get(0)` is `None`, nothing drains
    unfold procFramesSpec
    dsimp only
    rw [houts, appendProduced_queues_nil]
    refine ⟨rfl, rfl, rfl, rfl, ?_⟩
    intro ch
    simp
  · rcases outLens with _ | ⟨len, lens⟩
    · -- no proc output slices: nothing drains
      unfold procFramesSpec
      dsimp only
      rw [houts, appendProduced_cons]
      refine ⟨rfl, rfl, rfl, rfl, ?_⟩
      intro ch
      simp
    · unfold procFramesSpec
      dsimp only
      rw [houts, appendProduced_cons]
      simp only [List.head?_cons]
      split
      · refine ⟨rfl, rfl, rfl, ?_, ?_⟩
        · dsimp only
          rw [List.length_append, List.length_zipWith, List.length_drop]
          omega
        · intro ch
          exact drain_channel (len :: lens) _ ch
      · refine ⟨rfl, rfl, rfl, rfl, ?_⟩
        intro ch
        simp

theorem zipWith_append_empty :
    ∀ (data : List (List ℤ)),
      List.zipWith (fun a b => a ++ b) data
        (List.replicate data.length ([] : List ℤ)) = data
  | [] => rfl
  | d :: data => by
      simp only [List.length_cons, List.replicate_succ, List.zipWith]
      rw [List.append_nil, zipWith_append_empty data]

theorem zipWith_append_take_all (m : ℕ) :
    ∀ (data ins : List (List ℤ)), (∀ i ∈ ins, i.length ≤ m) →
      List.zipWith (fun buf inp => buf ++ inp.take m) data ins
        = List.zipWith (fun a b => a ++ b) data ins
  | [], _, _ => rfl
  | d :: data, [], _ => rfl
  | d :: data, i :: ins, h => by
      simp only [List.zipWith]
      rw [List.take_of_length_le (h i (List.mem_cons_self _ _)),
        zipWith_append_take_all m data ins
          (fun x hx => h x (List.mem_cons_of_mem _ hx))]

theorem zipWith_append_assoc :
    ∀ (a b c : List (List ℤ)),
      List.zipWith (fun x y => x ++ y)
          (List.zipWith (fun x y => x ++ y) a b) c
        = List.zipWith (fun x y => x ++ y) a
            (List.zipWith (fun x y => x ++ y) b c)
  | [], _, _ => rfl
  | x :: a, [], _ => rfl
  | x :: a, y :: b, [] => rfl
  | x :: a, y :: b, z :: c => by
      simp only [List.zipWith]
      rw [List.append_assoc, zipWith_append_assoc a b c]

theorem zipWith_append_drop (m : ℕ) :
    ∀ (comb rest : List (List ℤ)), (∀ cs ∈ comb, m ≤ cs.length) →
      List.zipWith (fun x y => x ++ y) (comb.map (List.drop m)) rest
        = (List.zipWith (fun x y => x ++ y) comb rest).map (List.drop m)
  | [], _, _ => rfl
  | c :: comb, [], _ => rfl
  | c :: comb, r :: rest, h => by
      simp only [List.map_cons, List.zipWith]
      rw [zipWith_append_drop m comb rest
          (fun x hx => h x (List.mem_cons_of_mem _ hx)),
        List.drop_append_of_le_length (h c (List.mem_cons_self _ _))]

theorem mem_zipWith_append :
    ∀ (xs ys : List (List ℤ)) (i : List ℤ),
      i ∈ List.zipWith (fun x y => x ++ y) xs ys →
      ∃ x ∈ xs, ∃ y ∈ ys, i = x ++ y
  | [], _, i, h => absurd h (by simp)
  | x :: xs, [], i, h => absurd h (by simp)
  | x :: xs, y :: ys, i, h => by
      simp only [List.zipWith, List.mem_cons] at h
      rcases h with h | h
      · exact ⟨x, List.mem_cons_self _ _, y, List.mem_cons_self _ _, h⟩
      · obtain ⟨a, ha, b, hb, hi⟩ := mem_zipWith_append xs ys i h
        exact ⟨a, List.mem_cons_of_mem _ ha, b, List.mem_cons_of_mem _ hb,
          hi⟩

theorem sumFrames_nil : sumFrames [] = 0 := rfl

theorem sumFrames_cons (call : BlockCall) (calls : List BlockCall) :
    sumFrames (call :: calls) = call.frames + sumFrames calls := by
  unfold sumFrames
  rw [List.map_cons, List.sum_cons]

theorem concatStreams_length (inCh : ℕ) :
    ∀ (calls : List BlockCall), (∀ c ∈ calls, c.inputs.length = inCh) →
      (concatStreams inCh calls).length = inCh
  | [], _ => List.length_replicate _ _
  | call :: calls, h => by
      unfold concatStreams
      rw [List.length_zipWith, h call (List.mem_cons_self _ _),
        concatStreams_length inCh calls
          (fun c hc => h c (List.mem_cons_of_mem _ hc)),
        Nat.min_self]

theorem concatStreams_entry_length (inCh : ℕ) :
    ∀ (calls : List BlockCall),
      (∀ c ∈ calls, c.inputs.length = inCh ∧
        ∀ i ∈ c.inputs, i.length = c.frames) →
      ∀ i ∈ concatStreams inCh calls, i.length = sumFrames calls
  | [], _ => by
      intro i hi
      rw [List.eq_of_mem_replicate hi]
      rfl
  | call :: calls, h => by
      intro i hi
      obtain ⟨x, hx, y, hy, hxy⟩ :=
        mem_zipWith_append call.inputs (concatStreams inCh calls) i hi
      rw [hxy, List.length_append,
        (h call (List.mem_cons_self _ _)).2 x hx,
        concatStreams_entry_length inCh calls
          (fun c hc => h c (List.mem_cons_of_mem _ hc)) y hy,
        sumFrames_cons]

theorem sliceChunk_prefix_stable (fsz j : ℕ) :
    ∀ (streams ext : List (List ℤ)), ext.length = streams.length →
      (∀ cs ∈ streams, j * fsz + fsz ≤ cs.length) →
      sliceChunk fsz (List.zipWith (fun x y => x ++ y) streams ext) j
        = sliceChunk fsz streams j
  | [], _, _, _ => by simp [sliceChunk]
  | c :: streams, [], h, _ => by simp at h
  | c :: streams, e :: ext, h, hlen => by
      unfold sliceChunk
      show ((c ++ e).drop (j * fsz)).take fsz :: _ = _
      have hc := hlen c (List.mem_cons_self _ _)
      rw [List.drop_append_of_le_length (by omega),
        List.take_append_of_le_length (by rw [List.length_drop]; omega)]
      have := sliceChunk_prefix_stable fsz j streams ext (by simpa using h)
        (fun cs hc => hlen cs (List.mem_cons_of_mem _ hc))
      unfold sliceChunk at this
      rw [this]
      rfl

theorem sliceChunk_shift (fsz m j : ℕ) (streams : List (List ℤ)) :
    sliceChunk fsz (streams.map (List.drop (m * fsz))) j
      = sliceChunk fsz streams (m + j) := by
  unfold sliceChunk
  rw [List.map_map]
  apply List.map_congr_left
  intro cs _
  show ((cs.drop (m * fsz)).drop (j * fsz)).take fsz = _
  rw [List.drop_drop, ← Nat.add_mul]

theorem split_div_mod (f a b : ℕ) (hf : 1 ≤ f) :
    (a + b) / f = a / f + (a % f + b) / f ∧
      (a + b) % f = (a % f + b) % f := by
  have h := Nat.div_add_mod a f
  constructor
  · conv_lhs => rw [← h, Nat.add_assoc]
    rw [Nat.mul_add_div hf]
  · conv_lhs => rw [← h, Nat.add_assoc]
    rw [Nat.mul_add_mod]

/-- A whole sequence of `FixedProcessBlock::process` calls behaves like one
closed-form feed of the channel-wise concatenated input streams: same final
accumulator, same callback state, the invocation log is exactly the list of
frame-sized chunks of the concatenated streams, and per output channel the
closed-form queue contents split into the drained samples (in call order)
followed by the left-over final queue. -/
theorem runCalls_spec (F : σ → List (List ℤ) → σ × List (List ℤ)) :
    ∀ (calls : List BlockCall) (fb : FixedProcessBlock) (s : σ),
      1 ≤ fb.inputs.channelCapacity →
      fb.inputs.data.length = fb.inputs.channelCount →
      (∀ b ∈ fb.inputs.data, b.length = fb.inputs.length) →
      fb.inputs.length < fb.inputs.channelCapacity →
      (∀ c ∈ calls, c.inputs.length = fb.inputs.channelCount ∧
        ∀ i ∈ c.inputs, i.length = c.frames) →
      (FixedProcessBlock.runCalls F fb s calls).1.inputs
          = (procFramesSpec F
              (concatStreams fb.inputs.channelCount calls)
              (sumFrames calls) fb s []).1.inputs ∧
      (FixedProcessBlock.runCalls F fb s calls).2.1
          = (procFramesSpec F
              (concatStreams fb.inputs.channelCount calls)
              (sumFrames calls) fb s []).2.1 ∧
      (FixedProcessBlock.runCalls F fb s calls).2.2.1
          = (procFramesSpec F
              (concatStreams fb.inputs.channelCount calls)
              (sumFrames calls) fb s []).2.2 ∧
      (FixedProcessBlock.runCalls F fb s calls).1.outputs.length
          = fb.outputs.length ∧
      (∀ ch, (procFramesSpec F
              (concatStreams fb.inputs.channelCount calls)
              (sumFrames calls) fb s []).1.outputs.getD ch []
          = drainedCat ch (FixedProcessBlock.runCalls F fb s calls).2.2.2
            ++ (FixedProcessBlock.runCalls F fb s calls).1.outputs.getD
                ch []) := by
  intro calls
  induction calls with
  | nil =>
      intro fb s hcap hcount hfill hl _
      have hins : (concatStreams fb.inputs.channelCount []).length
          = fb.inputs.channelCount := by
        rw [show concatStreams fb.inputs.channelCount []
            = List.replicate fb.inputs.channelCount [] from rfl,
          List.length_replicate]
      have h0 : (fb, s, ([] : List (List (List ℤ))))
          = procFramesSpec F (concatStreams fb.inputs.channelCount [])
              0 fb s [] := by
        rw [← procFrames_spec F (concatStreams fb.inputs.channelCount [])
          fb s [] hcap hcount hins hfill hl 0 (fun i _ => Nat.zero_le _)]
        rfl
      rw [show sumFrames [] = 0 from rfl, ← h0]
      refine ⟨rfl, rfl, rfl, rfl, ?_⟩
      intro ch
      exact (List.nil_append _).symm
  | cons call calls ih =>
      intro fb s hcap hcount hfill hl hshape
      obtain ⟨hc1, hc2⟩ := hshape call (List.mem_cons_self _ _)
      have hshape' : ∀ c ∈ calls,
          c.inputs.length = fb.inputs.channelCount ∧
          ∀ i ∈ c.inputs, i.length = c.frames :=
        fun c hc => hshape c (List.mem_cons_of_mem _ hc)
      have hrun : FixedProcessBlock.runCalls F fb s (call :: calls)
          = ((FixedProcessBlock.runCalls F
                (fb.process F s call.frames call.inputs call.outLens).1
                (fb.process F s call.frames call.inputs call.outLens).2.1
                calls).1,
             (FixedProcessBlock.runCalls F
                (fb.process F s call.frames call.inputs call.outLens).1
                (fb.process F s call.frames call.inputs call.outLens).2.1
                calls).2.1,
             (fb.process F s call.frames call.inputs call.outLens).2.2.1
               ++ (FixedProcessBlock.runCalls F
                (fb.process F s call.frames call.inputs call.outLens).1
                (fb.process F s call.frames call.inputs call.outLens).2.1
                calls).2.2.1,
             ((fb.process F s call.frames call.inputs call.outLens).2.2.2.1,
              (fb.process F s call.frames call.inputs call.outLens).2.2.2.2)
               :: (FixedProcessBlock.runCalls F
                (fb.process F s call.frames call.inputs call.outLens).1
                (fb.process F s call.frames call.inputs call.outLens).2.1
                calls).2.2.2) := rfl
      rw [hrun]
      generalize hr :
        fb.process F s call.frames call.inputs call.outLens = r
      generalize hrest :
        FixedProcessBlock.runCalls F r.1 r.2.1 calls = rest
      obtain ⟨hin, hst, hlog, hlen, hdr⟩ :=
        process_spec F fb s call.frames call.inputs call.outLens r hr.symm
          (procFramesSpec F call.inputs call.frames fb s []) rfl
          hcap hcount hc1 hfill hl (fun i hi => (hc2 i hi).ge)
      -- explicit forms of the per-call results
      have hin' : r.1.inputs
          = (⟨fb.inputs.channelCount, fb.inputs.channelCapacity,
              (List.zipWith (fun buf inp => buf ++ inp.take call.frames)
                fb.inputs.data call.inputs).map
                (List.drop (((fb.inputs.length + call.frames)
                    / fb.inputs.channelCapacity)
                  * fb.inputs.channelCapacity)),
              (fb.inputs.length + call.frames)
                % fb.inputs.channelCapacity⟩ : FlatChannels) := hin
      have hst' : r.2.1
          = (chunkFeedRef F fb.inputs.channelCapacity fb.outputs.length s
              ((List.range ((fb.inputs.length + call.frames)
                  / fb.inputs.channelCapacity)).map
                (sliceChunk fb.inputs.channelCapacity
                  (List.zipWith
                    (fun buf inp => buf ++ inp.take call.frames)
                    fb.inputs.data call.inputs)))).1 := hst
      have hlog' : r.2.2.1
          = (List.range ((fb.inputs.length + call.frames)
              / fb.inputs.channelCapacity)).map
              (sliceChunk fb.inputs.channelCapacity
                (List.zipWith (fun buf inp => buf ++ inp.take call.frames)
                  fb.inputs.data call.inputs)) := hlog
      have hlen' : r.1.outputs.length = fb.outputs.length := by
        refine hlen.trans ?_
        exact appendProduced_length _ fb.outputs 0
      have hdr' : ∀ ch,
          (appendProduced
            (chunkFeedRef F fb.inputs.channelCapacity fb.outputs.length s
              ((List.range ((fb.inputs.length + call.frames)
                  / fb.inputs.channelCapacity)).map
                (sliceChunk fb.inputs.channelCapacity
                  (List.zipWith
                    (fun buf inp => buf ++ inp.take call.frames)
                    fb.inputs.data call.inputs)))).2
            fb.outputs 0).getD ch []
          = r.2.2.2.2.getD ch [] ++ r.1.outputs.getD ch [] := hdr
      -- field projections of the new accumulator
      have hcc' : r.1.inputs.channelCount = fb.inputs.channelCount := by
        rw [hin']
      have hf' : r.1.inputs.channelCapacity = fb.inputs.channelCapacity :=
        by rw [hin']
      have hlf : r.1.inputs.length
          = (fb.inputs.length + call.frames) % fb.inputs.channelCapacity :=
        by rw [hin']
      have hdata' : r.1.inputs.data
          = (List.zipWith (fun buf inp => buf ++ inp.take call.frames)
              fb.inputs.data call.inputs).map
              (List.drop (((fb.inputs.length + call.frames)
                  / fb.inputs.channelCapacity)
                * fb.inputs.channelCapacity)) := by rw [hin']
      -- stream decompositions
      have hCplain :
          List.zipWith
            (fun buf inp => buf ++ inp.take (sumFrames (call :: calls)))
            fb.inputs.data
            (concatStreams fb.inputs.channelCount (call :: calls))
          = List.zipWith (fun x y => x ++ y)
              (List.zipWith (fun buf inp => buf ++ inp.take call.frames)
                fb.inputs.data call.inputs)
              (concatStreams fb.inputs.channelCount calls) := by
        rw [zipWith_append_take_all (sumFrames (call :: calls))
          fb.inputs.data
          (concatStreams fb.inputs.channelCount (call :: calls))
          (fun i hi => (concatStreams_entry_length
            fb.inputs.channelCount (call :: calls) hshape i hi).le)]
        rw [show concatStreams fb.inputs.channelCount (call :: calls)
            = List.zipWith (fun x y => x ++ y) call.inputs
                (concatStreams fb.inputs.channelCount calls) from rfl]
        rw [← zipWith_append_assoc fb.inputs.data call.inputs
          (concatStreams fb.inputs.channelCount calls)]
        rw [← zipWith_append_take_all call.frames fb.inputs.data
          call.inputs (fun i hi => (hc2 i hi).le)]
      have hC1len : ∀ cs ∈ List.zipWith
            (fun buf inp => buf ++ inp.take call.frames)
            fb.inputs.data call.inputs,
          cs.length = fb.inputs.length + call.frames :=
        fun cs hcs => zipWith_append_take_length call.frames
          fb.inputs.data call.inputs fb.inputs.length
          (hc1.trans hcount.symm) hfill (fun i hi => (hc2 i hi).ge) cs hcs
      have hC2 :
          List.zipWith
            (fun buf inp => buf ++ inp.take (sumFrames calls))
            ((List.zipWith (fun buf inp => buf ++ inp.take call.frames)
                fb.inputs.data call.inputs).map
              (List.drop (((fb.inputs.length + call.frames)
                  / fb.inputs.channelCapacity)
                * fb.inputs.channelCapacity)))
            (concatStreams fb.inputs.channelCount calls)
          = (List.zipWith (fun x y => x ++ y)
              (List.zipWith (fun buf inp => buf ++ inp.take call.frames)
                fb.inputs.data call.inputs)
              (concatStreams fb.inputs.channelCount calls)).map
              (List.drop (((fb.inputs.length + call.frames)
                  / fb.inputs.channelCapacity)
                * fb.inputs.channelCapacity)) := by
        rw [zipWith_append_take_all (sumFrames calls) _
          (concatStreams fb.inputs.channelCount calls)
          (fun i hi => (concatStreams_entry_length
            fb.inputs.channelCount calls hshape' i hi).le)]
        exact zipWith_append_drop _ _ _
          (fun cs hcs => by
            rw [hC1len cs hcs]
            exact Nat.div_mul_le_self _ _)
      have harith : fb.inputs.length + sumFrames (call :: calls)
          = fb.inputs.length + call.frames + sumFrames calls := by
        rw [sumFrames_cons, Nat.add_assoc]
      have hdiv : (fb.inputs.length + sumFrames (call :: calls))
            / fb.inputs.channelCapacity
          = (fb.inputs.length + call.frames) / fb.inputs.channelCapacity
            + ((fb.inputs.length + call.frames) % fb.inputs.channelCapacity
                + sumFrames calls) / fb.inputs.channelCapacity := by
        rw [harith]
        exact (split_div_mod fb.inputs.channelCapacity _ _ hcap).1
      have hmod : (fb.inputs.length + sumFrames (call :: calls))
            % fb.inputs.channelCapacity
          = ((fb.inputs.length + call.frames) % fb.inputs.channelCapacity
              + sumFrames calls) % fb.inputs.channelCapacity := by
        rw [harith]
        exact (split_div_mod fb.inputs.channelCapacity _ _ hcap).2
      have hchunks :
          (List.range ((fb.inputs.length + sumFrames (call :: calls))
              / fb.inputs.channelCapacity)).map
            (sliceChunk fb.inputs.channelCapacity
              (List.zipWith
                (fun buf inp =>
                  buf ++ inp.take (sumFrames (call :: calls)))
                fb.inputs.data
                (concatStreams fb.inputs.channelCount (call :: calls))))
          = (List.range ((fb.inputs.length + call.frames)
                / fb.inputs.channelCapacity)).map
              (sliceChunk fb.inputs.channelCapacity
                (List.zipWith
                  (fun buf inp => buf ++ inp.take call.frames)
                  fb.inputs.data call.inputs))
            ++ (List.range (((fb.inputs.length + call.frames)
                  % fb.inputs.channelCapacity + sumFrames calls)
                / fb.inputs.channelCapacity)).map
              (sliceChunk fb.inputs.channelCapacity
                ((List.zipWith (fun x y => x ++ y)
                  (List.zipWith
                    (fun buf inp => buf ++ inp.take call.frames)
                    fb.inputs.data call.inputs)
                  (concatStreams fb.inputs.channelCount calls)).map
                  (List.drop (((fb.inputs.length + call.frames)
                      / fb.inputs.channelCapacity)
                    * fb.inputs.channelCapacity)))) := by
        rw [hdiv, List.range_add _ _, List.map_append, List.map_map]
        refine congrArg₂ (fun a b : List (List (List ℤ)) => a ++ b) ?_ ?_
        · apply List.map_congr_left
          intro j hj
          rw [List.mem_range] at hj
          rw [hCplain]
          refine sliceChunk_prefix_stable fb.inputs.channelCapacity j _ _
            ?_ ?_
          · rw [concatStreams_length fb.inputs.channelCount calls
              (fun c hc => (hshape' c hc).1), List.length_zipWith, hcount,
              hc1, Nat.min_self]
          · intro cs hcs
            rw [hC1len cs hcs]
            have h1 : (j + 1) * fb.inputs.channelCapacity
                ≤ ((fb.inputs.length + call.frames)
                    / fb.inputs.channelCapacity)
                  * fb.inputs.channelCapacity :=
              Nat.mul_le_mul_right _ (Nat.succ_le_of_lt hj)
            have h2 : ((fb.inputs.length + call.frames)
                  / fb.inputs.channelCapacity)
                * fb.inputs.channelCapacity
                ≤ fb.inputs.length + call.frames :=
              Nat.div_mul_le_self _ _
            have h3 : (j + 1) * fb.inputs.channelCapacity
                = j * fb.inputs.channelCapacity
                  + fb.inputs.channelCapacity :=
              Nat.succ_mul _ _
            omega
        · apply List.map_congr_left
          intro x _
          show sliceChunk fb.inputs.channelCapacity _
            (((fb.inputs.length + call.frames)
              / fb.inputs.channelCapacity) + x) = _
          rw [hCplain, sliceChunk_shift]
      -- the invariants carry over to the drained accumulator
      have hcap₂ : 1 ≤ r.1.inputs.channelCapacity := by
        rw [hf']
        exact hcap
      have hcount₂ : r.1.inputs.data.length = r.1.inputs.channelCount := by
        rw [hcc', hdata', List.length_map, List.length_zipWith, hcount,
          hc1, Nat.min_self]
      have hfill₂ : ∀ b ∈ r.1.inputs.data, b.length = r.1.inputs.length :=
        by
        intro b hb
        rw [hdata'] at hb
        obtain ⟨cs, hcs, rfl⟩ := List.mem_map.mp hb
        rw [hlf, List.length_drop, hC1len cs hcs]
        have hdm := Nat.div_add_mod
          (fb.inputs.length + call.frames) fb.inputs.channelCapacity
        have hcomm : fb.inputs.channelCapacity
              * ((fb.inputs.length + call.frames)
                / fb.inputs.channelCapacity)
            = ((fb.inputs.length + call.frames)
                / fb.inputs.channelCapacity)
              * fb.inputs.channelCapacity := Nat.mul_comm _ _
        omega
      have hl₂ : r.1.inputs.length < r.1.inputs.channelCapacity := by
        rw [hlf, hf']
        exact Nat.mod_lt _ hcap
      have hshape₂ : ∀ c ∈ calls,
          c.inputs.length = r.1.inputs.channelCount ∧
          ∀ i ∈ c.inputs, i.length = c.frames := by
        intro c hc
        refine ⟨?_, (hshape' c hc).2⟩
        rw [hcc']
        exact (hshape' c hc).1
      obtain ⟨ihin, ihst, ihlog, ihlen, ihdr⟩ :=
        ih r.1 r.2.1 hcap₂ hcount₂ hfill₂ hl₂ hshape₂
      rw [hrest] at ihin ihst ihlog ihlen ihdr
      -- explicit forms of the tail-run results
      have ihin' : rest.1.inputs
          = (⟨r.1.inputs.channelCount, r.1.inputs.channelCapacity,
              (List.zipWith
                (fun buf inp => buf ++ inp.take (sumFrames calls))
                r.1.inputs.data
                (concatStreams r.1.inputs.channelCount calls)).map
                (List.drop (((r.1.inputs.length + sumFrames calls)
                    / r.1.inputs.channelCapacity)
                  * r.1.inputs.channelCapacity)),
              (r.1.inputs.length + sumFrames calls)
                % r.1.inputs.channelCapacity⟩ : FlatChannels) := ihin
      have ihst' : rest.2.1
          = (chunkFeedRef F r.1.inputs.channelCapacity r.1.outputs.length
              r.2.1
              ((List.range ((r.1.inputs.length + sumFrames calls)
                  / r.1.inputs.channelCapacity)).map
                (sliceChunk r.1.inputs.channelCapacity
                  (List.zipWith
                    (fun buf inp => buf ++ inp.take (sumFrames calls))
                    r.1.inputs.data
                    (concatStreams r.1.inputs.channelCount calls))))).1 :=
        ihst
      have ihlog' : rest.2.2.1
          = (List.range ((r.1.inputs.length + sumFrames calls)
              / r.1.inputs.channelCapacity)).map
              (sliceChunk r.1.inputs.channelCapacity
                (List.zipWith
                  (fun buf inp => buf ++ inp.take (sumFrames calls))
                  r.1.inputs.data
                  (concatStreams r.1.inputs.channelCount calls))) := ihlog
      have ihdr' : ∀ ch,
          (appendProduced
            (chunkFeedRef F r.1.inputs.channelCapacity r.1.outputs.length
              r.2.1
              ((List.range ((r.1.inputs.length + sumFrames calls)
                  / r.1.inputs.channelCapacity)).map
                (sliceChunk r.1.inputs.channelCapacity
                  (List.zipWith
                    (fun buf inp => buf ++ inp.take (sumFrames calls))
                    r.1.inputs.data
                    (concatStreams r.1.inputs.channelCount calls))))).2
            r.1.outputs 0).getD ch []
          = drainedCat ch rest.2.2.2 ++ rest.1.outputs.getD ch [] := ihdr
      rw [hcc', hf', hlf, hdata', hC2] at ihin'
      rw [hcc', hf', hlf, hdata', hlen', hst', hC2] at ihst'
      rw [hcc', hf', hlf, hdata', hC2] at ihlog'
      rw [hcc', hf', hlf, hdata', hlen', hst', hC2] at ihdr'
      refine ⟨?_, ?_, ?_, ihlen.trans hlen', ?_⟩
      · -- final accumulator
        show rest.1.inputs
          = (⟨fb.inputs.channelCount, fb.inputs.channelCapacity,
              (List.zipWith
                (fun buf inp =>
                  buf ++ inp.take (sumFrames (call :: calls)))
                fb.inputs.data
                (concatStreams fb.inputs.channelCount (call :: calls))).map
                (List.drop (((fb.inputs.length
                      + sumFrames (call :: calls))
                    / fb.inputs.channelCapacity)
                  * fb.inputs.channelCapacity)),
              (fb.inputs.length + sumFrames (call :: calls))
                % fb.inputs.channelCapacity⟩ : FlatChannels)
        rw [ihin', hmod.symm]
        have hdata_eq :
            (((List.zipWith (fun x y => x ++ y)
                (List.zipWith
                  (fun buf inp => buf ++ inp.take call.frames)
                  fb.inputs.data call.inputs)
                (concatStreams fb.inputs.channelCount calls)).map
                (List.drop (((fb.inputs.length + call.frames)
                    / fb.inputs.channelCapacity)
                  * fb.inputs.channelCapacity))).map
              (List.drop ((((fb.inputs.length + call.frames)
                    % fb.inputs.channelCapacity + sumFrames calls)
                  / fb.inputs.channelCapacity)
                * fb.inputs.channelCapacity)))
            = (List.zipWith
                (fun buf inp =>
                  buf ++ inp.take (sumFrames (call :: calls)))
                fb.inputs.data
                (concatStreams fb.inputs.channelCount (call :: calls))).map
                (List.drop (((fb.inputs.length
                      + sumFrames (call :: calls))
                    / fb.inputs.channelCapacity)
                  * fb.inputs.channelCapacity)) := by
          rw [hCplain, List.map_map]
          apply List.map_congr_left
          intro cs _
          show (cs.drop (((fb.inputs.length + call.frames)
                / fb.inputs.channelCapacity)
              * fb.inputs.channelCapacity)).drop
              ((((fb.inputs.length + call.frames)
                  % fb.inputs.channelCapacity + sumFrames calls)
                / fb.inputs.channelCapacity)
              * fb.inputs.channelCapacity) = _
          rw [List.drop_drop, ← Nat.add_mul, ← hdiv]
        rw [hdata_eq]
      · -- final callback state
        show rest.2.1
          = (chunkFeedRef F fb.inputs.channelCapacity fb.outputs.length s
              ((List.range ((fb.inputs.length
                    + sumFrames (call :: calls))
                  / fb.inputs.channelCapacity)).map
                (sliceChunk fb.inputs.channelCapacity
                  (List.zipWith
                    (fun buf inp =>
                      buf ++ inp.take (sumFrames (call :: calls)))
                    fb.inputs.data
                    (concatStreams fb.inputs.channelCount
                      (call :: calls)))))).1
        rw [hchunks, chunkFeedRef_append]
        exact ihst'
      · -- invocation log
        show r.2.2.1 ++ rest.2.2.1
          = (List.range ((fb.inputs.length + sumFrames (call :: calls))
              / fb.inputs.channelCapacity)).map
              (sliceChunk fb.inputs.channelCapacity
                (List.zipWith
                  (fun buf inp =>
                    buf ++ inp.take (sumFrames (call :: calls)))
                  fb.inputs.data
                  (concatStreams fb.inputs.channelCount (call :: calls))))
        rw [hlog', ihlog', hchunks]
      · -- queue contents split into drained prefix and left-over queue
        intro ch
        show (appendProduced
            (chunkFeedRef F fb.inputs.channelCapacity fb.outputs.length s
              ((List.range ((fb.inputs.length
                    + sumFrames (call :: calls))
                  / fb.inputs.channelCapacity)).map
                (sliceChunk fb.inputs.channelCapacity
                  (List.zipWith
                    (fun buf inp =>
                      buf ++ inp.take (sumFrames (call :: calls)))
                    fb.inputs.data
                    (concatStreams fb.inputs.channelCount
                      (call :: calls)))))).2
            fb.outputs 0).getD ch []
          = drainedCat ch ((r.2.2.2.1, r.2.2.2.2) :: rest.2.2.2)
            ++ rest.1.outputs.getD ch []
        rw [hchunks, chunkFeedRef_append]
        rw [show ((chunkFeedRef F fb.inputs.channelCapacity
              fb.outputs.length
              (chunkFeedRef F fb.inputs.channelCapacity fb.outputs.length
                s ((List.range ((fb.inputs.length + call.frames)
                    / fb.inputs.channelCapacity)).map
                  (sliceChunk fb.inputs.channelCapacity
                    (List.zipWith
                      (fun buf inp => buf ++ inp.take call.frames)
                      fb.inputs.data call.inputs)))).1
              ((List.range (((fb.inputs.length + call.frames)
                    % fb.inputs.channelCapacity + sumFrames calls)
                  / fb.inputs.channelCapacity)).map
                (sliceChunk fb.inputs.channelCapacity
                  ((List.zipWith (fun x y => x ++ y)
                    (List.zipWith
                      (fun buf inp => buf ++ inp.take call.frames)
                      fb.inputs.data call.inputs)
                    (concatStreams fb.inputs.channelCount calls)).map
                    (List.drop (((fb.inputs.length + call.frames)
                        / fb.inputs.channelCapacity)
                      * fb.inputs.channelCapacity)))))).1,
            (chunkFeedRef F fb.inputs.channelCapacity fb.outputs.length s
              ((List.range ((fb.inputs.length + call.frames)
                  / fb.inputs.channelCapacity)).map
                (sliceChunk fb.inputs.channelCapacity
                  (List.zipWith
                    (fun buf inp => buf ++ inp.take call.frames)
                    fb.inputs.data call.inputs)))).2
              ++ (chunkFeedRef F fb.inputs.channelCapacity
                fb.outputs.length
                (chunkFeedRef F fb.inputs.channelCapacity
                  fb.outputs.length s
                  ((List.range ((fb.inputs.length + call.frames)
                      / fb.inputs.channelCapacity)).map
                    (sliceChunk fb.inputs.channelCapacity
                      (List.zipWith
                        (fun buf inp => buf ++ inp.take call.frames)
                        fb.inputs.data call.inputs)))).1
                ((List.range (((fb.inputs.length + call.frames)
                      % fb.inputs.channelCapacity + sumFrames calls)
                    / fb.inputs.channelCapacity)).map
                  (sliceChunk fb.inputs.channelCapacity
                    ((List.zipWith (fun x y => x ++ y)
                      (List.zipWith
                        (fun buf inp => buf ++ inp.take call.frames)
                        fb.inputs.data call.inputs)
                      (concatStreams fb.inputs.channelCount calls)).map
                      (List.drop (((fb.inputs.length + call.frames)
                          / fb.inputs.channelCapacity)
                        * fb.inputs.channelCapacity)))))).2).2
            = (chunkFeedRef F fb.inputs.channelCapacity fb.outputs.length
                s ((List.range ((fb.inputs.length + call.frames)
                    / fb.inputs.channelCapacity)).map
                  (sliceChunk fb.inputs.channelCapacity
                    (List.zipWith
                      (fun buf inp => buf ++ inp.take call.frames)
                      fb.inputs.data call.inputs)))).2
              ++ (chunkFeedRef F fb.inputs.channelCapacity
                fb.outputs.length
                (chunkFeedRef F fb.inputs.channelCapacity
                  fb.outputs.length s
                  ((List.range ((fb.inputs.length + call.frames)
                      / fb.inputs.channelCapacity)).map
                    (sliceChunk fb.inputs.channelCapacity
                      (List.zipWith
                        (fun buf inp => buf ++ inp.take call.frames)
                        fb.inputs.data call.inputs)))).1
                ((List.range (((fb.inputs.length + call.frames)
                      % fb.inputs.channelCapacity + sumFrames calls)
                    / fb.inputs.channelCapacity)).map
                  (sliceChunk fb.inputs.channelCapacity
                    ((List.zipWith (fun x y => x ++ y)
                      (List.zipWith
                        (fun buf inp => buf ++ inp.take call.frames)
                        fb.inputs.data call.inputs)
                      (concatStreams fb.inputs.channelCount calls)).map
                      (List.drop (((fb.inputs.length + call.frames)
                          / fb.inputs.channelCapacity)
                        * fb.inputs.channelCapacity)))))).2 from rfl]
        rw [appendProduced_getD _ fb.outputs 0 ch (fun chunk hc => by
          rw [Nat.zero_add]
          rcases List.mem_append.mp hc with hc | hc
          · exact chunkFeedRef_shape F _ _ _ s chunk hc
          · exact chunkFeedRef_shape F _ _ _ _ chunk hc)]
        rw [Nat.zero_add, channelCat_append]
        have hdrA : fb.outputs.getD ch []
            ++ channelCat ch
              (chunkFeedRef F fb.inputs.channelCapacity fb.outputs.length
                s ((List.range ((fb.inputs.length + call.frames)
                    / fb.inputs.channelCapacity)).map
                  (sliceChunk fb.inputs.channelCapacity
                    (List.zipWith
                      (fun buf inp => buf ++ inp.take call.frames)
                      fb.inputs.data call.inputs)))).2
            = r.2.2.2.2.getD ch [] ++ r.1.outputs.getD ch [] := by
          have h1 := hdr' ch
          rw [appendProduced_getD _ fb.outputs 0 ch (fun chunk hc => by
            rw [Nat.zero_add]
            exact chunkFeedRef_shape F _ _ _ s chunk hc),
            Nat.zero_add] at h1
          exact h1
        have ihdrA : r.1.outputs.getD ch []
            ++ channelCat ch
              (chunkFeedRef F fb.inputs.channelCapacity fb.outputs.length
                (chunkFeedRef F fb.inputs.channelCapacity
                  fb.outputs.length s
                  ((List.range ((fb.inputs.length + call.frames)
                      / fb.inputs.channelCapacity)).map
                    (sliceChunk fb.inputs.channelCapacity
                      (List.zipWith
                        (fun buf inp => buf ++ inp.take call.frames)
                        fb.inputs.data call.inputs)))).1
                ((List.range (((fb.inputs.length + call.frames)
                      % fb.inputs.channelCapacity + sumFrames calls)
                    / fb.inputs.channelCapacity)).map
                  (sliceChunk fb.inputs.channelCapacity
                    ((List.zipWith (fun x y => x ++ y)
                      (List.zipWith
                        (fun buf inp => buf ++ inp.take call.frames)
                        fb.inputs.data call.inputs)
                      (concatStreams fb.inputs.channelCount calls)).map
                      (List.drop (((fb.inputs.length + call.frames)
                          / fb.inputs.channelCapacity)
                        * fb.inputs.channelCapacity)))))).2
            = drainedCat ch rest.2.2.2 ++ rest.1.outputs.getD ch [] := by
          have h2 := ihdr' ch
          rw [appendProduced_getD _ r.1.outputs 0 ch (fun chunk hc => by
            rw [Nat.zero_add, hlen']
            exact chunkFeedRef_shape F _ _ _ _ chunk hc),
            Nat.zero_add] at h2
          exact h2
        rw [drainedCat_cons, ← List.append_assoc, hdrA,
          List.append_assoc, ihdrA, ← List.append_assoc]

theorem zipWith_nil_append_take (m : ℕ) :
    ∀ (streams : List (List ℤ)), (∀ i ∈ streams, i.length ≤ m) →
      List.zipWith (fun buf inp => buf ++ inp.take m)
        (List.replicate streams.length ([] : List ℤ)) streams = streams
  | [], _ => rfl
  | i :: streams, h => by
      simp only [List.length_cons, List.replicate_succ, List.zipWith]
      rw [List.nil_append,
        List.take_of_length_le (h i (List.mem_cons_self _ _)),
        zipWith_nil_append_take m streams
          (fun x hx => h x (List.mem_cons_of_mem _ hx))]

theorem getD_replicate_nil :
    ∀ (n ch : ℕ), (List.replicate n ([] : List ℤ)).getD ch [] = []
  | 0, _ => by simp
  | n + 1, 0 => rfl
  | n + 1, ch + 1 => by
      rw [List.replicate_succ, List.getD_cons_succ]
      exact getD_replicate_nil n ch

/-- C1: frame reassembly correctness.  Running any sequence of
`FixedProcessBlock::process` calls (arbitrary per-call block sizes and drain
patterns) against a freshly constructed block: `process_fn` is invoked
exactly once per completed frame of accumulated input — the invocation log
is precisely the frame-sized chunking of the channel-wise concatenated
input streams, one invocation per complete chunk, every input slice passed
of exactly the fixed frame length — and per output channel the reference
result of feeding the same samples to `process_fn` directly in frame-sized
chunks equals the concatenation of all drained samples followed by the
left-over final queue, so the drained output reproduces the reference
output sample for sample. -/
theorem c1_frame_reassembly (F : σ → List (List ℤ) → σ × List (List ℤ))
    (f B inCh outCh : ℕ) (s : σ) (calls : List BlockCall)
    (hf : 1 ≤ f)
    (hshape : ∀ c ∈ calls, c.inputs.length = inCh ∧
      ∀ i ∈ c.inputs, i.length = c.frames) :
    (FixedProcessBlock.runCalls F (FixedProcessBlock.new f B inCh outCh) s
        calls).2.2.1
      = fullChunks f (sumFrames calls) (concatStreams inCh calls) ∧
    (FixedProcessBlock.runCalls F (FixedProcessBlock.new f B inCh outCh) s
        calls).2.2.1.length = sumFrames calls / f ∧
    (∀ chunk ∈ (FixedProcessBlock.runCalls F
        (FixedProcessBlock.new f B inCh outCh) s calls).2.2.1,
      chunk.length = inCh ∧ ∀ sl ∈ chunk, sl.length = f) ∧
    (∀ ch, channelCat ch
        (chunkFeedRef F f outCh s
          (fullChunks f (sumFrames calls) (concatStreams inCh calls))).2
      = drainedCat ch (FixedProcessBlock.runCalls F
            (FixedProcessBlock.new f B inCh outCh) s calls).2.2.2
        ++ (FixedProcessBlock.runCalls F
            (FixedProcessBlock.new f B inCh outCh) s
              calls).1.outputs.getD ch []) ∧
    (∀ ch, drainedCat ch (FixedProcessBlock.runCalls F
          (FixedProcessBlock.new f B inCh outCh) s calls).2.2.2
      = (channelCat ch (chunkFeedRef F f outCh s
          (fullChunks f (sumFrames calls)
            (concatStreams inCh calls))).2).take
          (drainedCat ch (FixedProcessBlock.runCalls F
            (FixedProcessBlock.new f B inCh outCh) s
              calls).2.2.2).length) := by
  obtain ⟨hin, hst, hlog, hlen, hdr⟩ :=
    runCalls_spec F calls (FixedProcessBlock.new f B inCh outCh) s hf
      (List.length_replicate inCh ([] : List ℤ))
      (fun b hb => by rw [List.eq_of_mem_replicate hb]; rfl)
      hf hshape
  have hlenstreams : (concatStreams inCh calls).length = inCh :=
    concatStreams_length inCh calls (fun c hc => (hshape c hc).1)
  have hlog2 : (FixedProcessBlock.runCalls F
        (FixedProcessBlock.new f B inCh outCh) s calls).2.2.1
      = (List.range ((0 + sumFrames calls) / f)).map
          (sliceChunk f
            (List.zipWith
              (fun buf inp => buf ++ inp.take (sumFrames calls))
              (List.replicate inCh ([] : List ℤ))
              (concatStreams inCh calls))) := hlog
  have hfc : (List.range ((0 + sumFrames calls) / f)).map
        (sliceChunk f
          (List.zipWith
            (fun buf inp => buf ++ inp.take (sumFrames calls))
            (List.replicate inCh ([] : List ℤ))
            (concatStreams inCh calls)))
      = fullChunks f (sumFrames calls) (concatStreams inCh calls) := by
    rw [show List.replicate inCh ([] : List ℤ)
        = List.replicate (concatStreams inCh calls).length [] from by
        rw [hlenstreams],
      zipWith_nil_append_take (sumFrames calls) (concatStreams inCh calls)
        (fun i hi =>
          (concatStreams_entry_length inCh calls hshape i hi).le),
      Nat.zero_add]
    rfl
  have h1 := hlog2.trans hfc
  have h2 : (FixedProcessBlock.runCalls F
        (FixedProcessBlock.new f B inCh outCh) s calls).2.2.1.length
      = sumFrames calls / f := by
    rw [h1]
    unfold fullChunks
    rw [List.length_map, List.length_range]
  have h3 : ∀ chunk ∈ (FixedProcessBlock.runCalls F
        (FixedProcessBlock.new f B inCh outCh) s calls).2.2.1,
      chunk.length = inCh ∧ ∀ sl ∈ chunk, sl.length = f := by
    intro chunk hc
    rw [h1] at hc
    unfold fullChunks at hc
    obtain ⟨j, hj, rfl⟩ := List.mem_map.mp hc
    rw [List.mem_range] at hj
    have hjf : (j + 1) * f ≤ sumFrames calls :=
      (Nat.le_div_iff_mul_le hf).mp (Nat.succ_le_of_lt hj)
    have hjs : (j + 1) * f = j * f + f := Nat.succ_mul _ _
    constructor
    · unfold sliceChunk
      rw [List.length_map, hlenstreams]
    · intro sl hsl
      unfold sliceChunk at hsl
      obtain ⟨cs, hcs, rfl⟩ := List.mem_map.mp hsl
      rw [List.length_take, List.length_drop,
        concatStreams_entry_length inCh calls hshape cs hcs]
      omega
  have hdr2 : ∀ ch,
      (appendProduced
        (chunkFeedRef F f (List.replicate outCh ([] : List ℤ)).length s
          ((List.range ((0 + sumFrames calls) / f)).map
            (sliceChunk f
              (List.zipWith
                (fun buf inp => buf ++ inp.take (sumFrames calls))
                (List.replicate inCh ([] : List ℤ))
                (concatStreams inCh calls))))).2
        (List.replicate outCh ([] : List ℤ)) 0).getD ch []
      = drainedCat ch (FixedProcessBlock.runCalls F
            (FixedProcessBlock.new f B inCh outCh) s calls).2.2.2
        ++ (FixedProcessBlock.runCalls F
            (FixedProcessBlock.new f B inCh outCh) s
              calls).1.outputs.getD ch [] := hdr
  rw [hfc, List.length_replicate] at hdr2
  have h4 : ∀ ch, channelCat ch
      (chunkFeedRef F f outCh s
        (fullChunks f (sumFrames calls) (concatStreams inCh calls))).2
      = drainedCat ch (FixedProcessBlock.runCalls F
            (FixedProcessBlock.new f B inCh outCh) s calls).2.2.2
        ++ (FixedProcessBlock.runCalls F
            (FixedProcessBlock.new f B inCh outCh) s
              calls).1.outputs.getD ch [] := by
    intro ch
    have h := hdr2 ch
    rw [appendProduced_getD _ (List.replicate outCh ([] : List ℤ)) 0 ch
      (fun chunk hc => by
        rw [Nat.zero_add, List.length_replicate]
        exact chunkFeedRef_shape F f outCh _ s chunk hc),
      Nat.zero_add, getD_replicate_nil, List.nil_append] at h
    exact h
  refine ⟨h1, h2, h3, h4, ?_⟩
  intro ch
  rw [h4 ch]
  exact (List.take_left _ _).symm

/-- Witness for C1 at concrete inputs: two callbacks with block sizes 1 and
3 against frame size 2 (non-multiples both ways), with a pass-through
counting callback. -/
theorem c1_witness :
    ((1 : ℕ) ≤ 2 ∧
      (∀ c ∈ [(⟨1, [[5]], []⟩ : BlockCall), ⟨3, [[6, 7, 8]], [2]⟩],
        c.inputs.length = 1 ∧ ∀ i ∈ c.inputs, i.length = c.frames)) ∧
    (FixedProcessBlock.runCalls
        (fun (st : ℕ) (chunk : List (List ℤ)) => (st + 1, chunk))
        (FixedProcessBlock.new 2 2 1 1) 0
        [⟨1, [[5]], []⟩, ⟨3, [[6, 7, 8]], [2]⟩]).2.2.1
      = fullChunks 2
          (sumFrames [⟨1, [[5]], []⟩, ⟨3, [[6, 7, 8]], [2]⟩])
          (concatStreams 1 [⟨1, [[5]], []⟩, ⟨3, [[6, 7, 8]], [2]⟩]) :=
  ⟨⟨by decide, by decide⟩,
    (c1_frame_reassembly
      (fun (st : ℕ) (chunk : List (List ℤ)) => (st + 1, chunk))
      2 2 1 1 0 [⟨1, [[5]], []⟩, ⟨3, [[6, 7, 8]], [2]⟩]
      (by decide) (by decide)).1⟩

end SteamAudio
